import Mathlib

/-!
# Verification of the `SquarifyLayout` treemap engine

This file gives a shallow embedding of `src/squarify.ts` (class
`SquarifyLayout`) and proves the specification's testable properties
about it.

Modelling choices:

* JavaScript `number` values are modelled by `JNum`: either an exact
  rational, `+Infinity`, `-Infinity`, or `NaN`.  Arithmetic follows
  IEEE-754 rules for the special values but is exact (no rounding) on
  the rational part; the model has no negative zero.  Item weights and
  the caller-supplied bounds are finite rationals (the spec treats
  non-finite inputs as precondition violations), while every value the
  engine computes is a `JNum`.
* The caller's `items` array is a `List Item`; each `Item` carries an
  `id` payload standing for its object identity, its `weight`, and an
  `Option JRect` for the geometry fields the engine writes.  The
  engine's working list `sorted` and the current `row` hold indices
  into that array, which models the shared object references of the
  original: writing geometry through a reference becomes `List.set` at
  the index.
* The `while` loop body of `squarify` becomes the function `step`; the
  loop itself is `stepExceptN`, iteration of `step` until the working
  list is empty.  The committed rows are additionally recorded in a
  `commitLog` field, which has no influence on the computation and
  lets theorems talk about how items were grouped into rows.
* `throw new Error(...)` becomes `Except.error` with the source's
  message.
-/

/-- A JavaScript `number` as used by this engine: `NaN`, `+Infinity`,
`-Infinity`, or an exact rational (no rounding, no negative zero). -/
inductive JNum where
  | nan : JNum
  | pinf : JNum
  | ninf : JNum
  | fin : ℚ → JNum
deriving DecidableEq, Inhabited

/-- `isNaN` test. -/
def jIsNaN : JNum → Bool
  | .nan => true
  | _ => false

/-- IEEE addition (exact on rationals). -/
def jadd : JNum → JNum → JNum
  | .nan, _ => .nan
  | _, .nan => .nan
  | .pinf, .ninf => .nan
  | .ninf, .pinf => .nan
  | .pinf, _ => .pinf
  | _, .pinf => .pinf
  | .ninf, _ => .ninf
  | _, .ninf => .ninf
  | .fin a, .fin b => .fin (a + b)

/-- IEEE subtraction (exact on rationals). -/
def jsub : JNum → JNum → JNum
  | .nan, _ => .nan
  | _, .nan => .nan
  | .pinf, .pinf => .nan
  | .ninf, .ninf => .nan
  | .pinf, _ => .pinf
  | _, .pinf => .ninf
  | .ninf, _ => .ninf
  | _, .ninf => .pinf
  | .fin a, .fin b => .fin (a - b)

/-- IEEE multiplication (exact on rationals); `0 * ±∞ = NaN`. -/
def jmul : JNum → JNum → JNum
  | .nan, _ => .nan
  | _, .nan => .nan
  | .pinf, .pinf => .pinf
  | .pinf, .ninf => .ninf
  | .ninf, .pinf => .ninf
  | .ninf, .ninf => .pinf
  | .pinf, .fin b => if b = 0 then .nan else if 0 < b then .pinf else .ninf
  | .fin a, .pinf => if a = 0 then .nan else if 0 < a then .pinf else .ninf
  | .ninf, .fin b => if b = 0 then .nan else if 0 < b then .ninf else .pinf
  | .fin a, .ninf => if a = 0 then .nan else if 0 < a then .ninf else .pinf
  | .fin a, .fin b => .fin (a * b)

/-- IEEE division (exact on rationals); `x / 0` is `±∞` for `x ≠ 0`
(the model has no negative zero, so the zero divisor counts as `+0`)
and `0 / 0 = NaN`; `∞ / ∞ = NaN`; finite / infinite is `0`. -/
def jdiv : JNum → JNum → JNum
  | .nan, _ => .nan
  | _, .nan => .nan
  | .pinf, .pinf => .nan
  | .pinf, .ninf => .nan
  | .ninf, .pinf => .nan
  | .ninf, .ninf => .nan
  | .pinf, .fin b => if 0 ≤ b then .pinf else .ninf
  | .ninf, .fin b => if 0 ≤ b then .ninf else .pinf
  | .fin _, .pinf => .fin 0
  | .fin _, .ninf => .fin 0
  | .fin a, .fin b =>
    if b = 0 then
      if a = 0 then .nan else if 0 < a then .pinf else .ninf
    else .fin (a / b)

/-- `Math.max` (returns `NaN` if an argument is `NaN`). -/
def jmax : JNum → JNum → JNum
  | .nan, _ => .nan
  | _, .nan => .nan
  | .pinf, _ => .pinf
  | _, .pinf => .pinf
  | .ninf, b => b
  | a, .ninf => a
  | .fin a, .fin b => .fin (max a b)

/-- `Math.min` (returns `NaN` if an argument is `NaN`). -/
def jmin : JNum → JNum → JNum
  | .nan, _ => .nan
  | _, .nan => .nan
  | .ninf, _ => .ninf
  | _, .ninf => .ninf
  | .pinf, b => b
  | a, .pinf => a
  | .fin a, .fin b => .fin (min a b)

/-- JavaScript `<=` on numbers: false whenever `NaN` is involved. -/
def jle : JNum → JNum → Bool
  | .nan, _ => false
  | _, .nan => false
  | .ninf, _ => true
  | _, .ninf => false
  | _, .pinf => true
  | .pinf, .fin _ => false
  | .fin a, .fin b => decide (a ≤ b)

/-- JavaScript `<` on numbers: false whenever `NaN` is involved. -/
def jlt : JNum → JNum → Bool
  | .nan, _ => false
  | _, .nan => false
  | .ninf, .ninf => false
  | .ninf, _ => true
  | _, .ninf => false
  | .pinf, _ => false
  | .fin _, .pinf => true
  | .fin a, .fin b => decide (a < b)

/-- JavaScript `>=` on numbers. -/
def jge (a b : JNum) : Bool := jle b a

/-- JavaScript `>` on numbers. -/
def jgt (a b : JNum) : Bool := jlt b a

/-- JavaScript `==` on numbers: `NaN` is equal to nothing. -/
def jeq : JNum → JNum → Bool
  | .nan, _ => false
  | _, .nan => false
  | .pinf, .pinf => true
  | .pinf, _ => false
  | _, .pinf => false
  | .ninf, .ninf => true
  | .ninf, _ => false
  | _, .ninf => false
  | .fin a, .fin b => decide (a = b)

/-- `Number.MAX_VALUE`, as the exact rational it denotes. -/
def numberMaxValue : ℚ := 2 ^ 1024 - 2 ^ 971

/-- A `SquarifyLayoutRect`: the four geometry fields. -/
structure JRect where
  x : JNum
  y : JNum
  width : JNum
  height : JNum
deriving DecidableEq, Inhabited

/-- A caller-owned item: `id` models the object's identity, `weight`
is the input weight, and `rect` holds the geometry fields once the
engine has written them (`none` = not yet written). -/
structure Item where
  id : ℕ
  weight : ℚ
  rect : Option JRect := none
deriving DecidableEq, Inhabited

/-- Read the item behind a reference (an index into the caller's
array). -/
def getItem (arr : List Item) (i : ℕ) : Item := arr.getD i default

/-- `sumWeights`, applied to a list of references into `arr`. -/
def sumW (arr : List Item) (idxs : List ℕ) : ℚ :=
  idxs.foldl (fun sum i => sum + (getItem arr i).weight) 0

/-- One step of the insertion sort modelling
`[...items].sort((a, b) => b.weight - a.weight)`: insert reference `i`
before the first reference whose weight is strictly smaller (stable,
descending by weight). -/
def insertIdxDesc (arr : List Item) (i : ℕ) : List ℕ → List ℕ
  | [] => [i]
  | j :: js =>
    if (getItem arr j).weight ≤ (getItem arr i).weight then i :: j :: js
    else j :: insertIdxDesc arr i js

/-- Stable sort of references by descending weight. -/
def sortIdxDesc (arr : List Item) : List ℕ → List ℕ
  | [] => []
  | i :: is => insertIdxDesc arr i (sortIdxDesc arr is)

/-- The message of the internal-invariant error thrown by
`calculateWorstAspectRatioInRow` on an empty row. -/
def emptyRowMsg : String :=
  "Row must contain at least one item. If you see this message, please file a bug report."

/-- Accumulation loop of `calculateWorstAspectRatioInRow` over
`row[1..]`: tracks `minArea`, `maxArea`, `sumOfAreas`. -/
def scanAreas (totalArea : JNum) (total : ℚ) :
    List Item → JNum → JNum → JNum → JNum × JNum × JNum
  | [], minArea, maxArea, sumOfAreas => (minArea, maxArea, sumOfAreas)
  | item :: rest, minArea, maxArea, sumOfAreas =>
    let area := jmul totalArea (jdiv (.fin item.weight) (.fin total))
    scanAreas totalArea total rest (jmin area minArea) (jmax area maxArea)
      (jadd sumOfAreas area)

/-- `calculateWorstAspectRatioInRow(row, lengthOfShorterEdge, bounds)`;
`total` and `remaining` are the fields `_totalRemainingWeightSum` and
`_itemsRemaining`. -/
def calculateWorstAspectRatioInRow (row : List Item) (lengthOfShorterEdge : JNum)
    (bounds : JRect) (total remaining : ℚ) : Except String JNum :=
  match row with
  | [] => .error emptyRowMsg
  | firstItem :: restItems =>
    if jeq lengthOfShorterEdge (.fin 0) then .ok (.fin numberMaxValue)
    else
      let totalArea := jmul bounds.width bounds.height
      let lengthSquared := jmul lengthOfShorterEdge lengthOfShorterEdge
      if total = 0 then
        let oneItemArea := jmul totalArea (jdiv (.fin 1) (.fin remaining))
        let rowArea := jmul oneItemArea (.fin ((restItems.length + 1 : ℕ) : ℚ))
        let rowAreaSquared := jmul rowArea rowArea
        .ok (jmax (jdiv (jmul lengthSquared oneItemArea) rowAreaSquared)
              (jdiv rowAreaSquared (jmul lengthSquared oneItemArea)))
      else
        let firstItemArea := jmul totalArea (jdiv (.fin firstItem.weight) (.fin total))
        let scanned :=
          scanAreas totalArea total restItems firstItemArea firstItemArea firstItemArea
        let minArea := scanned.1
        let maxArea := scanned.2.1
        let sumOfAreas := scanned.2.2
        let sumSquared := jmul sumOfAreas sumOfAreas
        .ok (jmax (jdiv (jmul lengthSquared maxArea) sumSquared)
              (jdiv sumSquared (jmul lengthSquared minArea)))

/-- The ratio `weight / sumOfRowWeights` of `layoutRow`, with its
NaN-driven fallback: even distribution `1 / row.length` when the row's
weight sum is zero (`rowLen` is `row.length` of the full row). -/
def fracOf (weight sumOfRowWeights : ℚ) (rowLen : ℕ) : JNum :=
  let frac0 := jdiv (.fin weight) (.fin sumOfRowWeights)
  if jIsNaN frac0 then
    (if sumOfRowWeights = 0 then jdiv (.fin 1) (.fin (rowLen : ℚ)) else .fin 0)
  else frac0

/-- The rectangle `layoutRow` writes onto one item. -/
def placedRect (horizontal : Bool) (bounds : JRect)
    (position lengthOfItemEdge lengthOfCommonItemEdge : JNum) : JRect :=
  if horizontal then
    { x := jadd bounds.x position, y := bounds.y,
      width := lengthOfItemEdge, height := lengthOfCommonItemEdge }
  else
    { x := bounds.x, y := jadd bounds.y position,
      width := jmax (.fin 0) lengthOfCommonItemEdge,
      height := jmax (.fin 0) lengthOfItemEdge }

/-- The per-item placement loop of `layoutRow`: walks the row writing
each item's geometry through its reference, advancing `position` and
decrementing `remaining` (`_itemsRemaining`). -/
def placeItems (horizontal : Bool) (lengthOfShorterEdge lengthOfCommonItemEdge : JNum)
    (sumOfRowWeights : ℚ) (rowLen : ℕ) (bounds : JRect) :
    List ℕ → JNum → List Item → ℚ → List Item × ℚ
  | [], _, arr, remaining => (arr, remaining)
  | i :: rest, position, arr, remaining =>
    let item := getItem arr i
    let lengthOfItemEdge :=
      jmul lengthOfShorterEdge (fracOf item.weight sumOfRowWeights rowLen)
    let r := placedRect horizontal bounds position lengthOfItemEdge lengthOfCommonItemEdge
    placeItems horizontal lengthOfShorterEdge lengthOfCommonItemEdge sumOfRowWeights
      rowLen bounds rest (jadd position lengthOfItemEdge)
      (arr.set i { item with rect := some r }) (remaining - 1)

/-- `updateBoundsForNextRow(bounds, modifier)`. -/
def updateBoundsForNextRow (bounds : JRect) (modifier : JNum) : JRect :=
  if jgt bounds.width bounds.height then
    let newWidth := jmax (.fin 0) (jsub bounds.width modifier)
    { bounds with x := jsub bounds.x (jsub newWidth bounds.width), width := newWidth }
  else
    let newHeight := jmax (.fin 0) (jsub bounds.height modifier)
    { bounds with y := jsub bounds.y (jsub newHeight bounds.height), height := newHeight }

/-- The `lengthOfCommonItemEdge` computation of `layoutRow`,
including its NaN-driven fallbacks. -/
def commonEdge (lengthOfLongerEdge : JNum) (sumOfRowWeights total rowLenQ remaining : ℚ) :
    JNum :=
  let common0 := jmul lengthOfLongerEdge (jdiv (.fin sumOfRowWeights) (.fin total))
  if jIsNaN common0 then
    if total = 0 then
      jdiv (jmul lengthOfLongerEdge (.fin rowLenQ)) (.fin remaining)
    else .fin 0
  else common0

/-- `layoutRow(row, lengthOfShorterEdge, bounds)` over references;
returns the mutated array, the updated bounds, and the updated
`_totalRemainingWeightSum` and `_itemsRemaining`. -/
def layoutRow (rowIdx : List ℕ) (lengthOfShorterEdge : JNum) (bounds : JRect)
    (arr : List Item) (total remaining : ℚ) : List Item × JRect × ℚ × ℚ :=
  let horizontal := jeq lengthOfShorterEdge bounds.width
  let lengthOfLongerEdge := if horizontal then bounds.height else bounds.width
  let sumOfRowWeights := sumW arr rowIdx
  let lengthOfCommonItemEdge :=
    commonEdge lengthOfLongerEdge sumOfRowWeights total (rowIdx.length : ℚ) remaining
  let (arr', remaining') :=
    placeItems horizontal lengthOfShorterEdge lengthOfCommonItemEdge sumOfRowWeights
      rowIdx.length bounds rowIdx (.fin 0) arr remaining
  (arr', updateBoundsForNextRow bounds lengthOfCommonItemEdge, total - sumOfRowWeights,
    remaining')

/-- The whole state of one `squarify` call: the caller's array, the
working list and current row (as references), the remaining bounds,
the two bookkeeping fields, `lastAspectRatio`, the cached
`lengthOfShorterEdge`, and a ghost log of the committed rows. -/
structure St where
  arr : List Item
  sorted : List ℕ
  row : List ℕ
  bounds : JRect
  total : ℚ
  remaining : ℚ
  lastAR : JNum
  shorter : JNum
  commitLog : List (List ℕ)
deriving DecidableEq, Inhabited

/-- Committing a row: `layoutRow`, then reset `lastAspectRatio`,
recompute `lengthOfShorterEdge`, clear the row (and log it). -/
def commitRow (s : St) : St :=
  let (arr', bounds', total', remaining') :=
    layoutRow s.row s.shorter s.bounds s.arr s.total s.remaining
  { arr := arr', sorted := s.sorted, row := [], bounds := bounds',
    total := total', remaining := remaining', lastAR := .pinf,
    shorter := jmin bounds'.width bounds'.height,
    commitLog := s.commitLog ++ [s.row] }

/-- One iteration of the `while (sorted.length > 0)` loop body. -/
def step (s : St) : Except String St :=
  match s.sorted with
  | [] => .ok s
  | nextItem :: rest =>
    let row := s.row ++ [nextItem]
    match calculateWorstAspectRatioInRow (row.map (getItem s.arr)) s.shorter s.bounds
        s.total s.remaining with
    | .error e => .error e
    | .ok aspect =>
      if jge s.lastAR aspect || jIsNaN aspect then
        if rest.isEmpty then
          .ok (commitRow { s with sorted := rest, row := row, lastAR := aspect })
        else
          .ok { s with sorted := rest, row := row, lastAR := aspect }
      else
        .ok (commitRow { s with sorted := nextItem :: rest, row := s.row })

/-- Iterate `step` at most `k` times, stopping once the working list
is empty. -/
def stepExceptN : ℕ → St → Except String St
  | 0, s => .ok s
  | k + 1, s =>
    if s.sorted.isEmpty then .ok s
    else
      match step s with
      | .error e => .error e
      | .ok s' => stepExceptN k s'

/-- The state at the top of `squarify`, after sorting and initializing
the bookkeeping fields. -/
def initSt (items : List Item) (bounds : JRect) : St :=
  let sorted := sortIdxDesc items (List.range items.length)
  { arr := items, sorted := sorted, row := [], bounds := bounds,
    total := sumW items sorted, remaining := (items.length : ℚ),
    lastAR := .pinf,
    shorter := jmin bounds.width bounds.height,
    commitLog := [] }

/-- Run `squarify(items, bounds)` to completion (the loop needs at
most `2 * items.length` iterations, as proved below). -/
def squarifyRun (items : List Item) (bounds : JRect) : Except String St :=
  stepExceptN (2 * items.length) (initSt items bounds)

/-- `squarify(items, bounds)`: the caller observes the mutated item
array. -/
def squarify (items : List Item) (bounds : JRect) : Except String (List Item) :=
  (squarifyRun items bounds).map St.arr

/-- A caller-supplied rectangle with finite coordinates. -/
def mkBounds (x y width height : ℚ) : JRect :=
  { x := .fin x, y := .fin y, width := .fin width, height := .fin height }

/-- A fresh input item (geometry fields not yet present). -/
def mkItem (id : ℕ) (weight : ℚ) : Item := { id := id, weight := weight }

/-- The exact area of an item's assigned rectangle (`0` if no
rectangle or a non-finite side, which the theorems' side conditions
rule out). -/
def itemAreaQ (it : Item) : ℚ :=
  match it.rect with
  | some r =>
    match r.width, r.height with
    | .fin a, .fin b => a * b
    | _, _ => 0
  | none => 0

/-- An item has been assigned a rectangle with finite, non-negative
width and height. -/
def FinRect (it : Item) : Prop :=
  ∃ r a b, it.rect = some r ∧ r.width = .fin a ∧ r.height = .fin b ∧ 0 ≤ a ∧ 0 ≤ b

/-- Loop-termination measure. -/
def stMeasure (s : St) : ℕ := 2 * s.sorted.length + s.row.length

/-! ## Finite-mode lemmas for `JNum` arithmetic -/

theorem jadd_fin (a b : ℚ) : jadd (.fin a) (.fin b) = .fin (a + b) := rfl

theorem jsub_fin (a b : ℚ) : jsub (.fin a) (.fin b) = .fin (a - b) := rfl

theorem jmul_fin (a b : ℚ) : jmul (.fin a) (.fin b) = .fin (a * b) := rfl

theorem jmax_fin (a b : ℚ) : jmax (.fin a) (.fin b) = .fin (max a b) := rfl

theorem jmin_fin (a b : ℚ) : jmin (.fin a) (.fin b) = .fin (min a b) := rfl

theorem jle_fin (a b : ℚ) : jle (.fin a) (.fin b) = decide (a ≤ b) := rfl

theorem jeq_fin (a b : ℚ) : jeq (.fin a) (.fin b) = decide (a = b) := rfl

theorem jgt_fin (a b : ℚ) : jgt (.fin a) (.fin b) = decide (b < a) := rfl

theorem jIsNaN_fin (a : ℚ) : jIsNaN (.fin a) = false := rfl

theorem jdiv_fin_of_ne (a b : ℚ) (hb : b ≠ 0) : jdiv (.fin a) (.fin b) = .fin (a / b) := by
  simp [jdiv, hb]

theorem jdiv_zero_zero : jdiv (.fin 0) (.fin 0) = .nan := by simp [jdiv]

/-- A freshly reset `lastAspectRatio = +∞` accepts any aspect value:
the loop guard `lastAspectRatio >= aspectRatio || isNaN(aspectRatio)`
is true. -/
theorem accept_of_pinf (a : JNum) : (jge JNum.pinf a || jIsNaN a) = true := by
  cases a <;> rfl

/-! ## Reading and writing items through references -/

theorem getItem_set_self {arr : List Item} {i : ℕ} (h : i < arr.length) (it : Item) :
    getItem (arr.set i it) i = it := by
  simp [getItem, List.getD, List.getElem?_set_self', h]

theorem getItem_set_ne {arr : List Item} {i j : ℕ} (h : i ≠ j) (it : Item) :
    getItem (arr.set i it) j = getItem arr j := by
  simp [getItem, List.getD, List.getElem?_set_ne h]

/-! ## Weight sums -/

theorem sumW_eq_sum (arr : List Item) (idxs : List ℕ) :
    sumW arr idxs = (idxs.map (fun i => (getItem arr i).weight)).sum := by
  suffices h : ∀ init : ℚ, idxs.foldl (fun sum i => sum + (getItem arr i).weight) init =
      init + (idxs.map (fun i => (getItem arr i).weight)).sum by
    simpa using h 0
  induction idxs with
  | nil => simp
  | cons j js ih => intro init; simp [ih]; ring

theorem sumW_cons (arr : List Item) (i : ℕ) (idxs : List ℕ) :
    sumW arr (i :: idxs) = (getItem arr i).weight + sumW arr idxs := by
  simp [sumW_eq_sum]

theorem sumW_append (arr : List Item) (l₁ l₂ : List ℕ) :
    sumW arr (l₁ ++ l₂) = sumW arr l₁ + sumW arr l₂ := by
  simp [sumW_eq_sum]

theorem sumW_congr {arr arr' : List Item} (idxs : List ℕ)
    (h : ∀ i ∈ idxs, (getItem arr' i).weight = (getItem arr i).weight) :
    sumW arr' idxs = sumW arr idxs := by
  simp only [sumW_eq_sum]
  exact congrArg List.sum (List.map_congr_left h)

theorem sumW_perm (arr : List Item) {l₁ l₂ : List ℕ} (h : l₁.Perm l₂) :
    sumW arr l₁ = sumW arr l₂ := by
  simp only [sumW_eq_sum]
  exact (h.map _).sum_eq

theorem sumW_nonneg {arr : List Item} {idxs : List ℕ}
    (h : ∀ i ∈ idxs, 0 ≤ (getItem arr i).weight) : 0 ≤ sumW arr idxs := by
  rw [sumW_eq_sum]
  apply List.sum_nonneg
  intro q hq
  obtain ⟨i, hi, rfl⟩ := List.mem_map.mp hq
  exact h i hi

theorem sumW_le_of_sublist {arr : List Item} {l₁ l₂ : List ℕ}
    (hsub : l₁.Sublist l₂) (h : ∀ i ∈ l₂, 0 ≤ (getItem arr i).weight) :
    sumW arr l₁ ≤ sumW arr l₂ := by
  simp only [sumW_eq_sum]
  apply List.Sublist.sum_le_sum (hsub.map _)
  intro q hq
  obtain ⟨i, hi, rfl⟩ := List.mem_map.mp hq
  exact h i hi

/-! ## The descending stable sort -/

theorem insertIdxDesc_perm (arr : List Item) (i : ℕ) (l : List ℕ) :
    (insertIdxDesc arr i l).Perm (i :: l) := by
  induction l with
  | nil => simp [insertIdxDesc]
  | cons j js ih =>
    unfold insertIdxDesc
    split
    · exact List.Perm.refl _
    · exact (ih.cons j).trans (List.Perm.swap i j js)

theorem sortIdxDesc_perm (arr : List Item) (l : List ℕ) :
    (sortIdxDesc arr l).Perm l := by
  induction l with
  | nil => simp [sortIdxDesc]
  | cons i is ih =>
    exact (insertIdxDesc_perm arr i _).trans (ih.cons i)

/-- Descending order on references, by the weight of the item behind
them. -/
def WgeOn (arr : List Item) (i j : ℕ) : Prop :=
  (getItem arr j).weight ≤ (getItem arr i).weight

theorem insertIdxDesc_pairwise (arr : List Item) (i : ℕ) {l : List ℕ}
    (hl : l.Pairwise (WgeOn arr)) : (insertIdxDesc arr i l).Pairwise (WgeOn arr) := by
  induction l with
  | nil => simp [insertIdxDesc, WgeOn]
  | cons j js ih =>
    unfold insertIdxDesc
    split
    · rename_i hji
      refine List.Pairwise.cons ?_ hl
      intro k hk
      rcases List.mem_cons.mp hk with rfl | hk
      · exact hji
      · exact le_trans (List.rel_of_pairwise_cons hl hk) hji
    · rename_i hji
      push_neg at hji
      have htail := ih (List.Pairwise.sublist (List.sublist_cons_self j js) hl)
      refine List.Pairwise.cons ?_ htail
      intro k hk
      have hk' := (insertIdxDesc_perm arr i js).mem_iff.mp hk
      rcases List.mem_cons.mp hk' with rfl | hk'
      · exact le_of_lt hji
      · exact List.rel_of_pairwise_cons hl hk'

theorem sortIdxDesc_pairwise (arr : List Item) (l : List ℕ) :
    (sortIdxDesc arr l).Pairwise (WgeOn arr) := by
  induction l with
  | nil => simp [sortIdxDesc]
  | cons i is ih => exact insertIdxDesc_pairwise arr i ih

/-! ## The placement loop -/

/-- Effect of the placement loop: array length, `remaining`
bookkeeping, untouched references, and the geometry written on each
row member (at some position `p`). -/
theorem placeItems_spec (horizontal : Bool) (sh ce : JNum) (sr : ℚ) (rl : ℕ) (b : JRect) :
    ∀ (idxs : List ℕ) (pos : JNum) (arr : List Item) (rem : ℚ),
      idxs.Nodup → (∀ i ∈ idxs, i < arr.length) →
      (placeItems horizontal sh ce sr rl b idxs pos arr rem).1.length = arr.length ∧
      (placeItems horizontal sh ce sr rl b idxs pos arr rem).2 = rem - (idxs.length : ℚ) ∧
      (∀ j, j ∉ idxs →
        getItem (placeItems horizontal sh ce sr rl b idxs pos arr rem).1 j = getItem arr j) ∧
      (∀ i ∈ idxs, ∃ p,
        getItem (placeItems horizontal sh ce sr rl b idxs pos arr rem).1 i =
          { getItem arr i with rect := some (placedRect horizontal b p
              (jmul sh (fracOf (getItem arr i).weight sr rl)) ce) }) := by
  intro idxs
  induction idxs with
  | nil =>
    intro pos arr rem _ _
    refine ⟨rfl, by simp [placeItems], ?_, ?_⟩ <;> simp [placeItems]
  | cons i rest ih =>
    intro pos arr rem hnd hval
    have hi : i < arr.length := hval i (by simp)
    obtain ⟨hni, hnd'⟩ := List.nodup_cons.mp hnd
    set item := getItem arr i with hitem
    set edge := jmul sh (fracOf item.weight sr rl) with hedge
    set arr' := arr.set i { item with rect := some (placedRect horizontal b pos edge ce) }
      with harr'
    have hunfold : placeItems horizontal sh ce sr rl b (i :: rest) pos arr rem =
        placeItems horizontal sh ce sr rl b rest (jadd pos edge) arr' (rem - 1) := by
      simp [placeItems, hitem, hedge, harr']
    have hval' : ∀ k ∈ rest, k < arr'.length := by
      intro k hk
      simpa [harr'] using hval k (List.mem_cons_of_mem i hk)
    obtain ⟨ihlen, ihrem, ihout, ihin⟩ := ih (jadd pos edge) arr' (rem - 1) hnd' hval'
    refine ⟨?_, ?_, ?_, ?_⟩
    · rw [hunfold, ihlen]; simp [harr']
    · rw [hunfold, ihrem, List.length_cons]; push_cast; ring
    · intro j hj
      have hji : j ≠ i := fun h => hj (h ▸ List.mem_cons_self i rest)
      have hjr : j ∉ rest := fun h => hj (List.mem_cons_of_mem i h)
      rw [hunfold, ihout j hjr, harr', getItem_set_ne (Ne.symm hji)]
    · intro k hk
      rcases List.mem_cons.mp hk with rfl | hk
      · refine ⟨pos, ?_⟩
        rw [hunfold, ihout k hni, harr', getItem_set_self hi]
      · have hki : k ≠ i := fun h => hni (h ▸ hk)
        obtain ⟨p, hp⟩ := ihin k hk
        refine ⟨p, ?_⟩
        rw [hunfold, hp, harr', getItem_set_ne (Ne.symm hki)]

/-- The rational value of the per-item ratio in the regimes the
theorems use (`sr = 0` only with all row weights zero). -/
def fqOf (w sr : ℚ) (rl : ℕ) : ℚ := if sr = 0 then 1 / (rl : ℚ) else w / sr

/-- The rational value of `lengthOfCommonItemEdge` in the regimes the
theorems use. -/
def ceOf (lg sr total rowLenQ remaining : ℚ) : ℚ :=
  if total = 0 then lg * rowLenQ / remaining else lg * (sr / total)

theorem fracOf_fin (w sr : ℚ) (rl : ℕ) (hrl : rl ≠ 0) (hw0 : sr = 0 → w = 0) :
    fracOf w sr rl = .fin (fqOf w sr rl) := by
  by_cases hsr : sr = 0
  · subst hsr
    rw [hw0 rfl]
    have hrlq : ((rl : ℚ)) ≠ 0 := Nat.cast_ne_zero.mpr hrl
    simp [fracOf, fqOf, jdiv, jIsNaN, hrlq]
  · simp [fracOf, fqOf, jdiv, hsr, jIsNaN]

theorem updateBounds_fin (bounds : JRect) (bw bh c : ℚ)
    (hW : bounds.width = .fin bw) (hH : bounds.height = .fin bh)
    (hcle : c ≤ max bw bh) (hbw : 0 ≤ bw) (hbh : 0 ≤ bh) :
    ∃ bw' bh', (updateBoundsForNextRow bounds (.fin c)).width = .fin bw' ∧
      (updateBoundsForNextRow bounds (.fin c)).height = .fin bh' ∧
      0 ≤ bw' ∧ 0 ≤ bh' ∧ bw' * bh' = min bw bh * (max bw bh - c) := by
  unfold updateBoundsForNextRow
  rw [hW, hH]
  by_cases h : bh < bw
  · have hgt : jgt (JNum.fin bw) (JNum.fin bh) = true := by
      simp [jgt, jlt, h]
    rw [if_pos hgt]
    have hmax : max bw bh = bw := max_eq_left (le_of_lt h)
    have hmin : min bw bh = bh := min_eq_right (le_of_lt h)
    refine ⟨max 0 (bw - c), bh, ?_, rfl, le_max_left _ _, hbh, ?_⟩
    · simp [jsub_fin, jmax_fin]
    · rw [hmax, hmin, max_eq_right (by linarith [hcle, hmax] : (0:ℚ) ≤ bw - c)]
      try ring
  · have hgt : jgt (JNum.fin bw) (JNum.fin bh) = false := by
      simp [jgt, jlt, h]
    rw [if_neg (by simp [hgt])]
    have hle : bw ≤ bh := le_of_not_lt h
    have hmax : max bw bh = bh := max_eq_right hle
    have hmin : min bw bh = bw := min_eq_left hle
    refine ⟨bw, max 0 (bh - c), rfl, ?_, hbw, le_max_left _ _, ?_⟩
    · simp [jsub_fin, jmax_fin]
    · rw [hmax, hmin, max_eq_right (by linarith [hcle, hmax] : (0:ℚ) ≤ bh - c)]
      try ring

theorem sumW_eq_zero {arr : List Item} {idxs : List ℕ}
    (hwnn : ∀ i ∈ idxs, 0 ≤ (getItem arr i).weight) (hz : sumW arr idxs = 0) :
    ∀ i ∈ idxs, (getItem arr i).weight = 0 := by
  intro i hi
  rw [sumW_eq_sum] at hz
  refine List.all_zero_of_le_zero_le_of_sum_eq_zero ?_ hz (List.mem_map_of_mem _ hi)
  intro x hx
  obtain ⟨j, hj, rfl⟩ := List.mem_map.mp hx
  exact hwnn j hj

theorem fqOf_nonneg {w sr : ℚ} (rl : ℕ) (hw : 0 ≤ w) (hsr : 0 ≤ sr) :
    0 ≤ fqOf w sr rl := by
  rw [fqOf]
  split
  · positivity
  · rename_i h
    exact div_nonneg hw hsr

/-- Worked-out effect of `layoutRow` when invoked the way `squarify`
does: finite non-negative bounds, the cached shorter edge, a non-empty
duplicate-free row of valid references with non-negative weights whose
sum is at most `total`, and `remaining` at least the row length. -/
theorem layoutRow_spec (rowIdx : List ℕ) (bounds : JRect) (arr : List Item)
    (total remaining : ℚ) (bw bh : ℚ)
    (hW : bounds.width = .fin bw) (hH : bounds.height = .fin bh)
    (hbw : 0 ≤ bw) (hbh : 0 ≤ bh)
    (hne : rowIdx ≠ []) (hnd : rowIdx.Nodup) (hval : ∀ i ∈ rowIdx, i < arr.length)
    (hwnn : ∀ i ∈ rowIdx, 0 ≤ (getItem arr i).weight)
    (htot : 0 ≤ total) (hsrle : sumW arr rowIdx ≤ total)
    (hrem : (rowIdx.length : ℚ) ≤ remaining) :
    ∃ arr' bounds',
      layoutRow rowIdx (jmin bounds.width bounds.height) bounds arr total remaining =
        (arr', bounds', total - sumW arr rowIdx, remaining - (rowIdx.length : ℚ)) ∧
      arr'.length = arr.length ∧
      (∀ j, j ∉ rowIdx → getItem arr' j = getItem arr j) ∧
      (∀ i ∈ rowIdx, ∃ r a b, getItem arr' i = { getItem arr i with rect := some r } ∧
        r.width = .fin a ∧ r.height = .fin b ∧ 0 ≤ a ∧ 0 ≤ b ∧
        a * b = min bw bh * fqOf (getItem arr i).weight (sumW arr rowIdx) rowIdx.length *
          ceOf (max bw bh) (sumW arr rowIdx) total (rowIdx.length : ℚ) remaining) ∧
      (∃ bw' bh', bounds'.width = .fin bw' ∧ bounds'.height = .fin bh' ∧
        0 ≤ bw' ∧ 0 ≤ bh' ∧ bw' * bh' = min bw bh *
          (max bw bh - ceOf (max bw bh) (sumW arr rowIdx) total (rowIdx.length : ℚ) remaining)) ∧
      0 ≤ ceOf (max bw bh) (sumW arr rowIdx) total (rowIdx.length : ℚ) remaining ∧
      ceOf (max bw bh) (sumW arr rowIdx) total (rowIdx.length : ℚ) remaining ≤ max bw bh := by
  have hlen1 : 1 ≤ rowIdx.length := List.length_pos.mpr hne
  have hlenq : (1 : ℚ) ≤ (rowIdx.length : ℚ) := by exact_mod_cast hlen1
  have hrempos : 0 < remaining := lt_of_lt_of_le (by linarith) hrem
  set sr := sumW arr rowIdx with hsr
  have hsrnn : 0 ≤ sr := sumW_nonneg hwnn
  have hsr0 : total = 0 → sr = 0 := fun h => le_antisymm (h ▸ hsrle) hsrnn
  set sh := min bw bh with hshq
  set lg := max bw bh with hlgq
  have hshnn : 0 ≤ sh := le_min hbw hbh
  have hlgnn : 0 ≤ lg := le_trans hbw (le_max_left _ _)
  set ceQ := ceOf lg sr total (rowIdx.length : ℚ) remaining with hceQ
  have hce0 : 0 ≤ ceQ := by
    rw [hceQ, ceOf]
    split
    · positivity
    · rename_i ht
      have htpos : 0 < total := lt_of_le_of_ne htot (Ne.symm ht)
      positivity
  have hcele : ceQ ≤ lg := by
    rw [hceQ, ceOf]
    split
    · rw [div_le_iff₀ hrempos]
      nlinarith [hrem, hlgnn]
    · rename_i ht
      have htpos : 0 < total := lt_of_le_of_ne htot (Ne.symm ht)
      have : sr / total ≤ 1 := (div_le_one htpos).mpr hsrle
      nlinarith [hlgnn]
  -- the longer edge and the orientation test
  have hminJ : jmin bounds.width bounds.height = .fin sh := by rw [hW, hH, jmin_fin]
  have hhoriz : jeq (jmin bounds.width bounds.height) bounds.width = decide (sh = bw) := by
    rw [hminJ, hW, jeq_fin]
  have hlongJ : (if jeq (jmin bounds.width bounds.height) bounds.width then bounds.height
      else bounds.width) = .fin lg := by
    rw [hhoriz]
    by_cases hmin : sh = bw
    · have hwle : bw ≤ bh := by
        rcases min_cases bw bh with ⟨h1, h2⟩ | ⟨h1, h2⟩
        · exact h2
        · rw [hshq] at hmin; nlinarith [hmin, h1, h2]
      simp [hmin, hH, hlgq, max_eq_right hwle]
    · have hlt : bh < bw := by
        rcases min_cases bw bh with ⟨h1, h2⟩ | ⟨h1, h2⟩
        · exact absurd (hshq.trans h1) hmin
        · exact h2
      simp [hmin, hW, hlgq, max_eq_left (le_of_lt hlt)]
  -- the common edge
  have hcommon : commonEdge (JNum.fin lg) sr total ((rowIdx.length : ℕ) : ℚ) remaining =
      .fin ceQ := by
    by_cases ht : total = 0
    · have hsrz : sr = 0 := hsr0 ht
      rw [commonEdge, ht, hsrz]
      simp only [jdiv_zero_zero]
      have hn : jmul (JNum.fin lg) JNum.nan = JNum.nan := rfl
      rw [hn]
      simp only [jIsNaN, if_pos rfl, if_pos, jmul_fin]
      rw [jdiv_fin_of_ne _ _ (ne_of_gt hrempos)]
      rw [hceQ, ceOf, if_pos ht]
    · rw [commonEdge]
      rw [jdiv_fin_of_ne _ _ ht, jmul_fin]
      simp [jIsNaN, hceQ, ceOf, ht]
  -- run the placement loop
  rcases hpl : placeItems (jeq (jmin bounds.width bounds.height) bounds.width)
      (jmin bounds.width bounds.height) (.fin ceQ) sr rowIdx.length bounds rowIdx (.fin 0)
      arr remaining with ⟨arr2, rem2⟩
  obtain ⟨hplen, hprem, hpout, hpin⟩ :=
    placeItems_spec (jeq (jmin bounds.width bounds.height) bounds.width)
      (jmin bounds.width bounds.height) (.fin ceQ) sr rowIdx.length bounds rowIdx (.fin 0)
      arr remaining hnd hval
  rw [hpl] at hplen hprem hpout hpin
  have hlr : layoutRow rowIdx (jmin bounds.width bounds.height) bounds arr total remaining =
      (arr2, updateBoundsForNextRow bounds (.fin ceQ), total - sr, rem2) := by
    simp only [layoutRow]
    rw [hlongJ, hcommon, hpl]
  have hrem2 : rem2 = remaining - (rowIdx.length : ℚ) := by simpa using hprem
  refine ⟨arr2, updateBoundsForNextRow bounds (.fin ceQ), ?_, ?_, ?_, ?_, ?_, hce0, hcele⟩
  · rw [hlr, hrem2]
  · simpa using hplen
  · intro j hj
    simpa using hpout j hj
  · intro i hi
    obtain ⟨p, hp⟩ := hpin i hi
    have hw : 0 ≤ (getItem arr i).weight := hwnn i hi
    have hfz : sr = 0 → (getItem arr i).weight = 0 := fun h => sumW_eq_zero hwnn h i hi
    have hfqnn : 0 ≤ fqOf (getItem arr i).weight sr rowIdx.length :=
      fqOf_nonneg _ hw hsrnn
    cases hhz : jeq (jmin bounds.width bounds.height) bounds.width
    · rw [hhz, fracOf_fin _ _ _ (by omega) hfz, hminJ, jmul_fin] at hp
      exact ⟨placedRect false bounds p
          (.fin (sh * fqOf (getItem arr i).weight sr rowIdx.length)) (.fin ceQ),
        ceQ, sh * fqOf (getItem arr i).weight sr rowIdx.length, hp,
        by simp [placedRect, jmax_fin, max_eq_right hce0],
        by simp [placedRect, jmax_fin, max_eq_right (mul_nonneg hshnn hfqnn)],
        hce0, mul_nonneg hshnn hfqnn, by ring⟩
    · rw [hhz, fracOf_fin _ _ _ (by omega) hfz, hminJ, jmul_fin] at hp
      exact ⟨placedRect true bounds p
          (.fin (sh * fqOf (getItem arr i).weight sr rowIdx.length)) (.fin ceQ),
        sh * fqOf (getItem arr i).weight sr rowIdx.length, ceQ, hp,
        by simp [placedRect], by simp [placedRect],
        mul_nonneg hshnn hfqnn, hce0, rfl⟩
  · obtain ⟨bw2, bh2, h1, h2, h3, h4, h5⟩ :=
      updateBounds_fin bounds bw bh ceQ hW hH hcele hbw hbh
    exact ⟨bw2, bh2, h1, h2, h3, h4, h5⟩

/-- `layoutRow` as an explicit tuple of its components. -/
theorem layoutRow_eq (rowIdx : List ℕ) (sh : JNum) (bounds : JRect) (arr : List Item)
    (total remaining : ℚ) :
    layoutRow rowIdx sh bounds arr total remaining =
      ((placeItems (jeq sh bounds.width) sh
          (commonEdge (if jeq sh bounds.width then bounds.height else bounds.width)
            (sumW arr rowIdx) total (rowIdx.length : ℚ) remaining)
          (sumW arr rowIdx) rowIdx.length bounds rowIdx (.fin 0) arr remaining).1,
        updateBoundsForNextRow bounds
          (commonEdge (if jeq sh bounds.width then bounds.height else bounds.width)
            (sumW arr rowIdx) total (rowIdx.length : ℚ) remaining),
        total - sumW arr rowIdx,
        (placeItems (jeq sh bounds.width) sh
          (commonEdge (if jeq sh bounds.width then bounds.height else bounds.width)
            (sumW arr rowIdx) total (rowIdx.length : ℚ) remaining)
          (sumW arr rowIdx) rowIdx.length bounds rowIdx (.fin 0) arr remaining).2) := by
  simp only [layoutRow]

/-- Bookkeeping effect of `layoutRow`, free of any sign conditions:
the returned `total`/`remaining`, the array length, the untouched
references, and the fact that each row member got some rectangle. -/
theorem layoutRow_book (rowIdx : List ℕ) (sh : JNum) (bounds : JRect) (arr : List Item)
    (total remaining : ℚ) (hnd : rowIdx.Nodup) (hval : ∀ i ∈ rowIdx, i < arr.length) :
    ∃ arr' bounds',
      layoutRow rowIdx sh bounds arr total remaining =
        (arr', bounds', total - sumW arr rowIdx, remaining - (rowIdx.length : ℚ)) ∧
      arr'.length = arr.length ∧
      (∀ j, j ∉ rowIdx → getItem arr' j = getItem arr j) ∧
      (∀ i ∈ rowIdx, ∃ r, getItem arr' i = { getItem arr i with rect := some r }) := by
  obtain ⟨hplen, hprem, hpout, hpin⟩ := placeItems_spec (jeq sh bounds.width) sh
      (commonEdge (if jeq sh bounds.width then bounds.height else bounds.width)
        (sumW arr rowIdx) total (rowIdx.length : ℚ) remaining)
      (sumW arr rowIdx) rowIdx.length bounds rowIdx (.fin 0) arr remaining hnd hval
  refine ⟨(placeItems (jeq sh bounds.width) sh
      (commonEdge (if jeq sh bounds.width then bounds.height else bounds.width)
        (sumW arr rowIdx) total (rowIdx.length : ℚ) remaining)
      (sumW arr rowIdx) rowIdx.length bounds rowIdx (.fin 0) arr remaining).1,
    updateBoundsForNextRow bounds
      (commonEdge (if jeq sh bounds.width then bounds.height else bounds.width)
        (sumW arr rowIdx) total (rowIdx.length : ℚ) remaining), ?_, hplen, hpout, ?_⟩
  · rw [layoutRow_eq, hprem]
  · intro i hi
    obtain ⟨p, hp⟩ := hpin i hi
    exact ⟨_, hp⟩

/-- The bookkeeping invariant of one `squarify` call, relating the
engine state to the caller's original `items`.  It holds with no
conditions on weight signs or bounds. -/
structure BookInv (items : List Item) (s : St) : Prop where
  arrLen : s.arr.length = items.length
  fresh : s.row = [] → s.lastAR = .pinf
  perm : (s.commitLog.flatten ++ (s.row ++ s.sorted)).Perm (List.range items.length)
  logNE : ∀ r ∈ s.commitLog, r ≠ []
  idw : ∀ i, i < items.length → (getItem s.arr i).id = (getItem items i).id ∧
    (getItem s.arr i).weight = (getItem items i).weight
  untouched : ∀ i ∈ s.row ++ s.sorted, getItem s.arr i = getItem items i
  placedSome : ∀ i ∈ s.commitLog.flatten, (getItem s.arr i).rect.isSome = true
  total : s.total = sumW s.arr (s.row ++ s.sorted)
  remaining : s.remaining = (((s.row ++ s.sorted).length : ℕ) : ℚ)

theorem BookInv.nodupAll {items : List Item} {s : St} (h : BookInv items s) :
    (s.commitLog.flatten ++ (s.row ++ s.sorted)).Nodup :=
  h.perm.nodup_iff.mpr (List.nodup_range _)

theorem BookInv.validAll {items : List Item} {s : St} (h : BookInv items s) :
    ∀ i ∈ s.commitLog.flatten ++ (s.row ++ s.sorted), i < items.length := by
  intro i hi
  have := h.perm.mem_iff.mp hi
  exact List.mem_range.mp this

/-- Committing a non-empty row preserves the bookkeeping invariant;
the working list is untouched, the row is cleared and logged. -/
theorem commitRow_book (items : List Item) (c : St) (h : BookInv items c) (hrne : c.row ≠ []) :
    BookInv items (commitRow c) ∧ (commitRow c).sorted = c.sorted ∧ (commitRow c).row = [] ∧
      (commitRow c).commitLog = c.commitLog ++ [c.row] := by
  have hnodupAll := h.nodupAll
  have hndrs : (c.row ++ c.sorted).Nodup := hnodupAll.of_append_right
  have hndrow : c.row.Nodup := hndrs.of_append_left
  have hdisj : c.row.Disjoint c.sorted := List.disjoint_of_nodup_append hndrs
  have hdisjlog : (c.commitLog.flatten).Disjoint (c.row ++ c.sorted) :=
    List.disjoint_of_nodup_append hnodupAll
  have hvalrow : ∀ i ∈ c.row, i < c.arr.length := by
    intro i hi
    rw [h.arrLen]
    exact h.validAll i (by simp [hi])
  obtain ⟨arr', bounds', hlr, hlen, hout, hin⟩ :=
    layoutRow_book c.row c.shorter c.bounds c.arr c.total c.remaining hndrow hvalrow
  have hcr : commitRow c =
      { arr := arr', sorted := c.sorted, row := [], bounds := bounds',
        total := c.total - sumW c.arr c.row, remaining := c.remaining - (c.row.length : ℚ),
        lastAR := .pinf, shorter := jmin bounds'.width bounds'.height,
        commitLog := c.commitLog ++ [c.row] } := by
    simp only [commitRow]
    rw [hlr]
  have houtside : ∀ i ∈ c.sorted, getItem arr' i = getItem c.arr i := by
    intro i hi
    exact hout i (fun hrow => hdisj hrow hi)
  rw [hcr]
  refine ⟨?_, rfl, rfl, rfl⟩
  refine ⟨hlen.trans h.arrLen, fun _ => rfl, ?_, ?_, ?_, ?_, ?_, ?_, ?_⟩
  · have hp := h.perm
    simp only [List.flatten_append, List.flatten_cons, List.flatten_nil, List.append_nil,
      List.nil_append, List.append_assoc] at hp ⊢
    exact hp
  · intro r hr
    rcases List.mem_append.mp hr with hr | hr
    · exact h.logNE r hr
    · rcases List.mem_singleton.mp hr with rfl
      exact hrne
  · intro i hi
    by_cases hrow : i ∈ c.row
    · obtain ⟨r, hr⟩ := hin i hrow
      rw [hr]
      exact h.idw i hi
    · rw [hout i hrow]
      exact h.idw i hi
  · intro i hi
    rw [List.nil_append] at hi
    rw [houtside i hi]
    exact h.untouched i (List.mem_append_right _ hi)
  · intro i hi
    simp only [List.flatten_append, List.flatten_cons, List.flatten_nil, List.append_nil] at hi
    rcases List.mem_append.mp hi with hi | hi
    · have hnotrow : i ∉ c.row := fun hr => hdisjlog hi (List.mem_append_left _ hr)
      rw [hout i hnotrow]
      exact h.placedSome i hi
    · obtain ⟨r, hr⟩ := hin i hi
      rw [hr]
      rfl
  · show c.total - sumW c.arr c.row = sumW arr' ([] ++ c.sorted)
    rw [List.nil_append]
    have hws : sumW arr' c.sorted = sumW c.arr c.sorted :=
      sumW_congr c.sorted (fun i hi => by rw [houtside i hi])
    have ht := h.total
    rw [sumW_append] at ht
    rw [hws]
    linarith [ht]
  · show c.remaining - (c.row.length : ℚ) = ((([] ++ c.sorted).length : ℕ) : ℚ)
    have hr := h.remaining
    rw [List.length_append] at hr
    rw [hr, List.nil_append]
    push_cast
    ring

/-- The empty-row internal error, exactly on empty rows. -/
theorem calcWorst_empty (sh : JNum) (b : JRect) (t r : ℚ) :
    calculateWorstAspectRatioInRow [] sh b t r = .error emptyRowMsg := rfl

/-- On any non-empty row the aspect-ratio evaluation returns a value
(never throws). -/
theorem calcWorst_ok (row : List Item) (sh : JNum) (b : JRect) (t r : ℚ) (hne : row ≠ []) :
    ∃ v, calculateWorstAspectRatioInRow row sh b t r = .ok v := by
  cases row with
  | nil => exact absurd rfl hne
  | cons f rest =>
    rw [calculateWorstAspectRatioInRow]
    by_cases h1 : jeq sh (JNum.fin 0) = true
    · rw [if_pos h1]; exact ⟨_, rfl⟩
    · rw [if_neg h1]
      by_cases h2 : t = 0
      · rw [if_pos h2]; exact ⟨_, rfl⟩
      · rw [if_neg h2]; exact ⟨_, rfl⟩

/-- With a zero shorter edge, the aspect-ratio evaluation of any
non-empty row is `Number.MAX_VALUE`. -/
theorem calcWorst_maxValue (row : List Item) (b : JRect) (t r : ℚ) (hne : row ≠ []) :
    calculateWorstAspectRatioInRow row (.fin 0) b t r = .ok (.fin numberMaxValue) := by
  cases row with
  | nil => exact absurd rfl hne
  | cons f rest =>
    rw [calculateWorstAspectRatioInRow]
    rw [if_pos (by rw [jeq_fin]; simp)]

/-- One loop iteration on a non-empty working list: no error, the
bookkeeping invariant is preserved, the measure strictly decreases,
and an emptied working list comes with an empty row. -/
theorem step_book (items : List Item) (s : St) (h : BookInv items s) (hne : s.sorted ≠ []) :
    ∃ s', step s = .ok s' ∧ BookInv items s' ∧ (s'.sorted = [] → s'.row = []) ∧
      stMeasure s' < stMeasure s ∧
      ((s'.arr = s.arr ∧ s'.bounds = s.bounds ∧ s'.total = s.total ∧
          s'.remaining = s.remaining ∧ s'.shorter = s.shorter ∧
          s'.commitLog = s.commitLog) ∨
        (∃ c, BookInv items c ∧ c.row ≠ [] ∧ c.arr = s.arr ∧ c.bounds = s.bounds ∧
          c.total = s.total ∧ c.remaining = s.remaining ∧ c.shorter = s.shorter ∧
          c.commitLog = s.commitLog ∧ s' = commitRow c)) := by
  obtain ⟨arr, sorted, row, bounds, total, remaining, lastAR, shorter, log⟩ := s
  cases sorted with
  | nil => exact absurd rfl hne
  | cons nextI rest =>
    obtain ⟨aspect, hcalc⟩ := calcWorst_ok ((row ++ [nextI]).map (getItem arr))
      shorter bounds total remaining (by simp)
    by_cases hacc : (jge lastAR aspect || jIsNaN aspect) = true
    · cases rest with
      | nil =>
        have hc : BookInv items
            (⟨arr, [], row ++ [nextI], bounds, total, remaining, aspect, shorter, log⟩ : St) := by
          refine ⟨h.arrLen, fun habs => absurd habs (by simp), ?_, h.logNE, h.idw, ?_,
            h.placedSome, ?_, ?_⟩
          · simpa using h.perm
          · intro i hi
            refine h.untouched i ?_
            simpa using hi
          · simpa using h.total
          · simpa using h.remaining
        obtain ⟨hbook, hsorted, hrow, hlog⟩ := commitRow_book items _ hc (by simp)
        refine ⟨_, ?_, hbook, fun _ => hrow, ?_,
          Or.inr ⟨_, hc, by simp, rfl, rfl, rfl, rfl, rfl, rfl, rfl⟩⟩
        · simp only [step]
          rw [hcalc]
          simp [hacc]
        · rw [stMeasure, stMeasure, hsorted, hrow]
          simp
      | cons r1 rs =>
        refine ⟨⟨arr, r1 :: rs, row ++ [nextI], bounds, total, remaining, aspect, shorter, log⟩,
          ?_, ?_, by simp, ?_, Or.inl ⟨rfl, rfl, rfl, rfl, rfl, rfl⟩⟩
        · simp only [step]
          rw [hcalc]
          simp [hacc]
        · refine ⟨h.arrLen, fun habs => absurd habs (by simp), ?_, h.logNE, h.idw, ?_,
            h.placedSome, ?_, ?_⟩
          · simpa using h.perm
          · intro i hi
            refine h.untouched i ?_
            simpa using hi
          · simpa using h.total
          · simpa using h.remaining
        · rw [stMeasure, stMeasure]
          simp [List.length_append]
          omega
    · have hrne : row ≠ [] := by
        intro habs
        have hpinf := h.fresh habs
        rw [show (⟨arr, nextI :: rest, row, bounds, total, remaining, lastAR, shorter,
          log⟩ : St).lastAR = lastAR from rfl] at hpinf
        rw [hpinf] at hacc
        exact hacc (accept_of_pinf aspect)
      obtain ⟨hbook, hsorted, hrow, hlog⟩ := commitRow_book items _ h hrne
      refine ⟨_, ?_, hbook, ?_, ?_,
        Or.inr ⟨_, h, hrne, rfl, rfl, rfl, rfl, rfl, rfl, rfl⟩⟩
      · simp only [step]
        rw [hcalc]
        simp [hacc]
      · intro habs
        rw [hsorted] at habs
        exact absurd habs (by simp)
      · rw [stMeasure, stMeasure, hsorted, hrow]
        have hrl : 1 ≤ row.length := List.length_pos.mpr hrne
        simp
        omega

theorem getItem_mem {items : List Item} {i : ℕ} (h : i < items.length) :
    getItem items i ∈ items := by
  rw [getItem, List.getD_eq_getElem?_getD, List.getElem?_eq_getElem h]
  exact List.getElem_mem h

/-- Sums over a list of items seen through `getItem` at all indices. -/
theorem sum_map_eq_range (f : Item → ℚ) (items : List Item) :
    (items.map f).sum =
      ((List.range items.length).map (fun i => f (getItem items i))).sum := by
  induction items with
  | nil => simp
  | cons it rest ih =>
    rw [List.length_cons, List.range_succ_eq_map]
    simp only [List.map_cons, List.map_map, List.sum_cons]
    have hfun : (fun i => f (getItem (it :: rest) i)) ∘ Nat.succ =
        fun i => f (getItem rest i) := by
      funext i
      simp [getItem, List.getD]
    rw [hfun]
    simp [ih, getItem, List.getD]

/-- The initial state satisfies the bookkeeping invariant. -/
theorem initSt_book (items : List Item) (bounds : JRect) :
    BookInv items (initSt items bounds) ∧ (initSt items bounds).row = [] ∧
      (initSt items bounds).commitLog = [] ∧ (initSt items bounds).arr = items ∧
      (initSt items bounds).total = sumW items (sortIdxDesc items (List.range items.length)) := by
  have hperm := sortIdxDesc_perm items (List.range items.length)
  refine ⟨⟨rfl, fun _ => rfl, ?_, ?_, ?_, ?_, ?_, ?_, ?_⟩, rfl, rfl, rfl, rfl⟩
  · simpa using hperm
  · intro r hr
    simp [initSt] at hr
  · intro i _
    exact ⟨rfl, rfl⟩
  · intro i _
    rfl
  · intro i hi
    simp [initSt] at hi
  · rfl
  · simp [initSt, hperm.length_eq]

/-- Once the working list is empty, iteration is the identity. -/
theorem stepExceptN_fix (k : ℕ) (s : St) (h : s.sorted = []) :
    stepExceptN k s = .ok s := by
  cases k with
  | zero => rfl
  | succ k =>
    rw [stepExceptN, if_pos (by simp [h])]

/-- Running the loop from any state satisfying the invariant: no
error, the invariant transports, and enough fuel drains the working
list and the row. -/
theorem stepExceptN_book (items : List Item) :
    ∀ (k : ℕ) (s : St), BookInv items s → (s.sorted = [] → s.row = []) →
      ∃ s', stepExceptN k s = .ok s' ∧ BookInv items s' ∧ (s'.sorted = [] → s'.row = []) ∧
        (stMeasure s ≤ k → s'.sorted = [] ∧ s'.row = []) := by
  intro k
  induction k with
  | zero =>
    intro s hb hre
    refine ⟨s, rfl, hb, hre, ?_⟩
    intro hm
    rw [stMeasure] at hm
    have h1 : s.sorted.length = 0 := by omega
    have h2 : s.row.length = 0 := by omega
    exact ⟨List.length_eq_zero.mp h1, List.length_eq_zero.mp h2⟩
  | succ k ih =>
    intro s hb hre
    by_cases hs : s.sorted = []
    · refine ⟨s, ?_, hb, hre, fun _ => ⟨hs, hre hs⟩⟩
      exact stepExceptN_fix _ s hs
    · obtain ⟨s₁, hstep, hb₁, hre₁, hdec, _⟩ := step_book items s hb hs
      obtain ⟨s', hrun, hb', hre', hfin⟩ := ih s₁ hb₁ hre₁
      refine ⟨s', ?_, hb', hre', ?_⟩
      · rw [stepExceptN, if_neg (by simp [hs]), hstep]
        exact hrun
      · intro hm
        exact hfin (by omega)

/-- Extra fuel after the working list has emptied changes nothing. -/
theorem stepExceptN_mono :
    ∀ (k : ℕ) (s s' : St), stepExceptN k s = .ok s' → s'.sorted = [] →
      ∀ k', k ≤ k' → stepExceptN k' s = .ok s' := by
  intro k
  induction k with
  | zero =>
    intro s s' h hs' k' _
    rw [stepExceptN] at h
    cases h
    exact stepExceptN_fix k' s hs'
  | succ k ih =>
    intro s s' h hs' k' hk
    by_cases hs : s.sorted = []
    · rw [stepExceptN_fix _ s hs] at h
      cases h
      exact stepExceptN_fix k' s hs
    · rw [stepExceptN, if_neg (by simp [hs])] at h
      match k', hk with
      | k'' + 1, hk =>
        rw [stepExceptN, if_neg (by simp [hs])]
        match hstep : step s with
        | .error e => rw [hstep] at h; exact absurd h (by simp)
        | .ok s₁ =>
          rw [hstep] at h
          exact ih s₁ s' h hs' k'' (by omega)

theorem length_le_flatten_length (L : List (List ℕ)) (h : ∀ r ∈ L, r ≠ []) :
    L.length ≤ L.flatten.length := by
  induction L with
  | nil => simp
  | cons r rs ih =>
    simp only [List.flatten_cons, List.length_append, List.length_cons]
    have h1 : 1 ≤ r.length := List.length_pos.mpr (h r (by simp))
    have h2 := ih (fun x hx => h x (by simp [hx]))
    omega

/-- The completed `squarify` run: no error, the invariant at the
final state, and both working lists empty. -/
theorem squarifyRun_book (items : List Item) (bounds : JRect) :
    ∃ s, squarifyRun items bounds = .ok s ∧ BookInv items s ∧ s.sorted = [] ∧ s.row = [] := by
  obtain ⟨hb, hrow, hlog, harr, htot⟩ := initSt_book items bounds
  obtain ⟨s', hrun, hb', hre', hfin⟩ := stepExceptN_book items (2 * items.length)
    (initSt items bounds) hb (fun _ => hrow)
  have hlen : (initSt items bounds).sorted.length = items.length := by
    rw [show (initSt items bounds).sorted = sortIdxDesc items (List.range items.length) from rfl,
      (sortIdxDesc_perm items (List.range items.length)).length_eq, List.length_range]
  have hm : stMeasure (initSt items bounds) ≤ 2 * items.length := by
    rw [stMeasure, hlen, hrow]
    simp
  obtain ⟨hs, hr⟩ := hfin hm
  exact ⟨s', hrun, hb', hs, hr⟩

/-- Claim C7: the aspect-ratio evaluation signals the internal error
exactly on an empty row; on any non-empty row it returns a value; and
since every row `squarify` evaluates has just received an item, a
`squarify` call never errors. -/
theorem claim7_empty_row_error :
    (∀ (sh : JNum) (b : JRect) (t r : ℚ),
      calculateWorstAspectRatioInRow [] sh b t r = .error emptyRowMsg) ∧
    (∀ (row : List Item) (sh : JNum) (b : JRect) (t r : ℚ), row ≠ [] →
      ∃ v, calculateWorstAspectRatioInRow row sh b t r = .ok v) ∧
    (∀ (items : List Item) (bounds : JRect), ∃ out, squarify items bounds = .ok out) := by
  refine ⟨fun _ _ _ _ => rfl, fun row sh b t r hne => calcWorst_ok row sh b t r hne, ?_⟩
  intro items bounds
  obtain ⟨s, hrun, _, _, _⟩ := squarifyRun_book items bounds
  refine ⟨s.arr, ?_⟩
  rw [squarify, hrun]
  rfl

/-- Claim C6: termination. For every finite item list (and arbitrary
bounds) the loop empties the working list within `2 n` iterations and
is then stable; the loop guard accepts the first item of every fresh
row (`lastAspectRatio = +∞` passes for every aspect value); there are
at most `n` committed rows and exactly `n` item placements. -/
theorem claim6_termination (items : List Item) (bounds : JRect) :
    ∃ s, squarifyRun items bounds = .ok s ∧ s.sorted = [] ∧ s.row = [] ∧
      (∀ k, 2 * items.length ≤ k → stepExceptN k (initSt items bounds) = .ok s) ∧
      (∀ a, (jge JNum.pinf a || jIsNaN a) = true) ∧
      s.commitLog.length ≤ items.length ∧
      s.commitLog.flatten.length = items.length := by
  obtain ⟨s, hrun, hb, hs, hr⟩ := squarifyRun_book items bounds
  have hflat : s.commitLog.flatten.Perm (List.range items.length) := by
    have := hb.perm
    rw [hs, hr] at this
    simpa using this
  have hflen : s.commitLog.flatten.length = items.length := by
    rw [hflat.length_eq, List.length_range]
  refine ⟨s, hrun, hs, hr, ?_, accept_of_pinf, ?_, hflen⟩
  · intro k hk
    exact stepExceptN_mono (2 * items.length) _ s hrun hs k hk
  · rw [← hflen]
    exact length_le_flatten_length _ hb.logNE

/-- Claim C5: throughout the run `_totalRemainingWeightSum` is the
weight sum of the not-yet-placed items and `_itemsRemaining` their
count; at termination both are exactly `0` and every input item has
been placed exactly once (the commit log is a permutation of all
indices) and carries a rectangle. -/
theorem claim5_bookkeeping (items : List Item) (bounds : JRect) :
    (∀ k, ∃ sk, stepExceptN k (initSt items bounds) = .ok sk ∧
      sk.total = sumW items (sk.row ++ sk.sorted) ∧
      sk.remaining = (((sk.row ++ sk.sorted).length : ℕ) : ℚ)) ∧
    (∃ s, squarifyRun items bounds = .ok s ∧ s.remaining = 0 ∧ s.total = 0 ∧
      s.commitLog.flatten.Perm (List.range items.length) ∧ s.commitLog.flatten.Nodup ∧
      (∀ i, i < items.length → ((getItem s.arr i).rect).isSome = true)) := by
  constructor
  · intro k
    obtain ⟨hb, hrow, _, _, _⟩ := initSt_book items bounds
    obtain ⟨sk, hrun, hbk, _, _⟩ := stepExceptN_book items k (initSt items bounds) hb
      (fun _ => hrow)
    refine ⟨sk, hrun, ?_, hbk.remaining⟩
    rw [hbk.total]
    exact (sumW_congr _ (fun i hi => by rw [hbk.untouched i hi])).symm
  · obtain ⟨s, hrun, hb, hs, hr⟩ := squarifyRun_book items bounds
    have hflat : s.commitLog.flatten.Perm (List.range items.length) := by
      have := hb.perm
      rw [hs, hr] at this
      simpa using this
    refine ⟨s, hrun, ?_, ?_, hflat, ?_, ?_⟩
    · rw [hb.remaining, hs, hr]
      simp
    · rw [hb.total, hs, hr]
      rfl
    · exact hflat.nodup_iff.mpr (List.nodup_range _)
    · intro i hi
      exact hb.placedSome i (hflat.mem_iff.mpr (List.mem_range.mpr hi))

/-- Claim C8: the caller's array is neither reordered nor replaced:
the output has the same length, and the element at each index is the
input element at that index with only its geometry filled in. -/
theorem claim8_no_reorder (items : List Item) (bounds : JRect) :
    ∃ out, squarify items bounds = .ok out ∧ out.length = items.length ∧
      ∀ i : Fin items.length,
        getItem out i = { getItem items i with rect := (getItem out i).rect } := by
  obtain ⟨s, hrun, hb, _, _⟩ := squarifyRun_book items bounds
  refine ⟨s.arr, by rw [squarify, hrun]; rfl, hb.arrLen, ?_⟩
  intro i
  obtain ⟨hid, hwt⟩ := hb.idw i i.isLt
  rcases ha : getItem s.arr i with ⟨ia, wa, ra⟩
  rcases hbi : getItem items i with ⟨ib, wb, rb⟩
  rw [ha, hbi] at hid hwt
  simp only at hid hwt
  simp [hid, hwt]

/-- Claim C10: `squarify` never modifies any item's `weight`: every
output element carries the same weight as the input element at the
same index. -/
theorem claim10_weights_preserved (items : List Item) (bounds : JRect) :
    ∃ out, squarify items bounds = .ok out ∧
      ∀ i : Fin items.length, (getItem out i).weight = (getItem items i).weight := by
  obtain ⟨s, hrun, hb, _, _⟩ := squarifyRun_book items bounds
  exact ⟨s.arr, by rw [squarify, hrun]; rfl, fun i => (hb.idw i i.isLt).2⟩

/-- Generic transport of a state predicate over the loop: it must be
insensitive to the fields a non-committing step leaves alone, and be
preserved by committing a non-empty row. -/
theorem stepExceptN_withInv (items : List Item) (P : St → Prop)
    (hcongr : ∀ s s', s'.arr = s.arr → s'.bounds = s.bounds → s'.total = s.total →
      s'.remaining = s.remaining → s'.shorter = s.shorter → s'.commitLog = s.commitLog →
      P s → P s')
    (hcommit : ∀ c, BookInv items c → c.row ≠ [] → P c → P (commitRow c)) :
    ∀ (k : ℕ) (s : St), BookInv items s → (s.sorted = [] → s.row = []) → P s →
      ∃ s', stepExceptN k s = .ok s' ∧ BookInv items s' ∧ (s'.sorted = [] → s'.row = []) ∧
        P s' ∧ (stMeasure s ≤ k → s'.sorted = [] ∧ s'.row = []) := by
  intro k
  induction k with
  | zero =>
    intro s hb hre hP
    refine ⟨s, rfl, hb, hre, hP, ?_⟩
    intro hm
    rw [stMeasure] at hm
    have h1 : s.sorted.length = 0 := by omega
    have h2 : s.row.length = 0 := by omega
    exact ⟨List.length_eq_zero.mp h1, List.length_eq_zero.mp h2⟩
  | succ k ih =>
    intro s hb hre hP
    by_cases hs : s.sorted = []
    · exact ⟨s, stepExceptN_fix _ s hs, hb, hre, hP, fun _ => ⟨hs, hre hs⟩⟩
    · obtain ⟨s₁, hstep, hb₁, hre₁, hdec, hbridge⟩ := step_book items s hb hs
      have hP₁ : P s₁ := by
        rcases hbridge with ⟨h1, h2, h3, h4, h5, h6⟩ | ⟨c, hbc, hcne, h1, h2, h3, h4, h5, h6, hcr⟩
        · exact hcongr s s₁ h1 h2 h3 h4 h5 h6 hP
        · rw [hcr]
          refine hcommit c hbc hcne ?_
          exact hcongr s c h1 h2 h3 h4 h5 h6 hP
      obtain ⟨s', hrun, hb', hre', hP', hfin⟩ := ih s₁ hb₁ hre₁ hP₁
      refine ⟨s', ?_, hb', hre', hP', fun hm => hfin (by omega)⟩
      rw [stepExceptN, if_neg (by simp [hs]), hstep]
      exact hrun

/-- Invariant for the exact-area claims: the remaining bounds are
finite and non-negative with area tied to the remaining weight by
`area * T0 = A0 * total`, the cached shorter edge is the bounds
minimum, and every placed rectangle is finite and non-negative with
`width * height * T0 = A0 * weight`. -/
def AreaP (T0 A0 : ℚ) (s : St) : Prop :=
  (∃ bw bh, s.bounds.width = .fin bw ∧ s.bounds.height = .fin bh ∧ 0 ≤ bw ∧ 0 ≤ bh ∧
    bw * bh * T0 = A0 * s.total) ∧
  s.shorter = jmin s.bounds.width s.bounds.height ∧
  (∀ i ∈ s.commitLog.flatten, ∃ r a b, (getItem s.arr i).rect = some r ∧
    r.width = .fin a ∧ r.height = .fin b ∧ 0 ≤ a ∧ 0 ≤ b ∧
    a * b * T0 = A0 * (getItem s.arr i).weight)

theorem AreaP_congr (T0 A0 : ℚ) (s s' : St) (harr : s'.arr = s.arr)
    (hbd : s'.bounds = s.bounds) (ht : s'.total = s.total) (hsh : s'.shorter = s.shorter)
    (hlog : s'.commitLog = s.commitLog) (h : AreaP T0 A0 s) : AreaP T0 A0 s' := by
  obtain ⟨⟨bw, bh, h1, h2, h3, h4, h5⟩, hsh0, hp⟩ := h
  refine ⟨⟨bw, bh, by rw [hbd]; exact h1, by rw [hbd]; exact h2, h3, h4,
    by rw [ht]; exact h5⟩, by rw [hsh, hbd]; exact hsh0, ?_⟩
  intro i hi
  rw [harr]
  exact hp i (by rw [← hlog]; exact hi)

/-- Committing a non-empty row preserves the exact-area invariant,
given non-negative item weights and `0 ≤ T0`. -/
theorem commitRow_area (items : List Item) (T0 A0 : ℚ) (c : St)
    (hb : BookInv items c) (hrne : c.row ≠ [])
    (hwnn : ∀ it ∈ items, 0 ≤ it.weight) (hT0 : 0 ≤ T0)
    (hA : AreaP T0 A0 c) : AreaP T0 A0 (commitRow c) := by
  obtain ⟨⟨bw, bh, hW, hH, hbw, hbh, hrel⟩, hsh, hplaced⟩ := hA
  have hnodupAll := hb.nodupAll
  have hndrs : (c.row ++ c.sorted).Nodup := hnodupAll.of_append_right
  have hndrow : c.row.Nodup := hndrs.of_append_left
  have hdisjlog : (c.commitLog.flatten).Disjoint (c.row ++ c.sorted) :=
    List.disjoint_of_nodup_append hnodupAll
  have hvalrow : ∀ i ∈ c.row, i < c.arr.length := by
    intro i hi
    rw [hb.arrLen]
    exact hb.validAll i (List.mem_append_right _ (List.mem_append_left _ hi))
  have hwarr : ∀ i ∈ c.row ++ c.sorted, 0 ≤ (getItem c.arr i).weight := by
    intro i hi
    have hilt : i < items.length := hb.validAll i (List.mem_append_right _ hi)
    rw [(hb.idw i hilt).2]
    exact hwnn _ (getItem_mem hilt)
  have hwrow : ∀ i ∈ c.row, 0 ≤ (getItem c.arr i).weight :=
    fun i hi => hwarr i (List.mem_append_left _ hi)
  have htot0 : 0 ≤ c.total := by
    rw [hb.total]
    exact sumW_nonneg hwarr
  have hsrle : sumW c.arr c.row ≤ c.total := by
    rw [hb.total, sumW_append]
    have := sumW_nonneg (fun i hi => hwarr i (List.mem_append_right _ hi))
    linarith
  have hrl1 : 1 ≤ c.row.length := List.length_pos.mpr hrne
  have hremge : ((c.row.length : ℕ) : ℚ) ≤ c.remaining := by
    rw [hb.remaining, List.length_append]
    push_cast
    have h0 : (0:ℚ) ≤ c.sorted.length := by positivity
    linarith
  have hrempos : 0 < c.remaining := by
    have : (1:ℚ) ≤ ((c.row.length : ℕ) : ℚ) := by exact_mod_cast hrl1
    linarith
  obtain ⟨arr', bounds', hlr, hlen, hout, hin, ⟨bw', bh', hW', hH', hbw', hbh', hprod⟩,
    hce0, hcele⟩ :=
    layoutRow_spec c.row c.bounds c.arr c.total c.remaining bw bh hW hH hbw hbh
      hrne hndrow hvalrow hwrow htot0 hsrle hremge
  have hcr : commitRow c =
      { arr := arr', sorted := c.sorted, row := [], bounds := bounds',
        total := c.total - sumW c.arr c.row, remaining := c.remaining - (c.row.length : ℚ),
        lastAR := .pinf, shorter := jmin bounds'.width bounds'.height,
        commitLog := c.commitLog ++ [c.row] } := by
    simp only [commitRow]
    rw [hsh, hlr]
  rw [hcr]
  have hsrnn : 0 ≤ sumW c.arr c.row := sumW_nonneg hwrow
  have hshlg : min bw bh * max bw bh = bw * bh := min_mul_max bw bh
  have hrel' : min bw bh * max bw bh * T0 = A0 * c.total := by rw [hshlg]; exact hrel
  have hlenne : ((c.row.length : ℕ) : ℚ) ≠ 0 := by
    have : (1:ℚ) ≤ ((c.row.length : ℕ) : ℚ) := by exact_mod_cast hrl1
    linarith
  refine ⟨⟨bw', bh', hW', hH', hbw', hbh', ?_⟩, rfl, ?_⟩
  · by_cases ht : c.total = 0
    · have hsr0 : sumW c.arr c.row = 0 := le_antisymm (ht ▸ hsrle) hsrnn
      rw [ht, hsr0, sub_zero]
      have hz : min bw bh * max bw bh * T0 = 0 := by rw [hrel', ht]; ring
      have h1 : 0 ≤ min bw bh := le_min hbw hbh
      rw [hprod]
      have h2 : min bw bh * (max bw bh -
          ceOf (max bw bh) (sumW c.arr c.row) c.total ((c.row.length : ℕ) : ℚ)
            c.remaining) * T0 ≤ min bw bh * max bw bh * T0 :=
        mul_le_mul_of_nonneg_right
          (mul_le_mul_of_nonneg_left (by linarith [hce0]) h1) hT0
      have h3 : 0 ≤ min bw bh * (max bw bh -
          ceOf (max bw bh) (sumW c.arr c.row) c.total ((c.row.length : ℕ) : ℚ)
            c.remaining) * T0 :=
        mul_nonneg (mul_nonneg h1 (by linarith [hcele])) hT0
      have h4 : min bw bh * (max bw bh -
          ceOf (max bw bh) (sumW c.arr c.row) c.total ((c.row.length : ℕ) : ℚ)
            c.remaining) * T0 = 0 := le_antisymm (by linarith [h2, hz]) h3
      rw [mul_zero]
      exact h4
    · rw [hprod, ceOf, if_neg ht]
      field_simp
      linear_combination (c.total - sumW c.arr c.row) * hrel'
  · intro i hi
    simp only [List.flatten_append, List.flatten_cons, List.flatten_nil, List.append_nil] at hi
    rcases List.mem_append.mp hi with hi | hi
    · have hnotrow : i ∉ c.row := fun hr => hdisjlog hi (List.mem_append_left _ hr)
      show ∃ r a b, (getItem arr' i).rect = some r ∧ _
      rw [hout i hnotrow]
      exact hplaced i hi
    · obtain ⟨r, a, b, hitem, hwid, hhgt, ha0, hb0, harea⟩ := hin i hi
      refine ⟨r, a, b, ?_, hwid, hhgt, ha0, hb0, ?_⟩
      · rw [hitem]
      · rw [hitem]
        show a * b * T0 = A0 * (getItem c.arr i).weight
        rw [harea]
        by_cases ht : c.total = 0
        · have hsr0 : sumW c.arr c.row = 0 := le_antisymm (ht ▸ hsrle) hsrnn
          have hw0 : (getItem c.arr i).weight = 0 := sumW_eq_zero hwrow hsr0 i hi
          have hz : min bw bh * max bw bh * T0 = 0 := by rw [hrel', ht]; ring
          rw [hw0, hsr0, fqOf, if_pos rfl, ceOf, if_pos ht]
          field_simp
          linear_combination ((c.row.length : ℕ) : ℚ) * hz
        · by_cases hsr : sumW c.arr c.row = 0
          · have hw0 : (getItem c.arr i).weight = 0 := sumW_eq_zero hwrow hsr i hi
            rw [hw0, hsr, ceOf, if_neg ht]
            ring_nf
          · rw [fqOf, if_neg hsr, ceOf, if_neg ht]
            field_simp
            linear_combination (getItem c.arr i).weight * sumW c.arr c.row * hrel'

theorem getItem_lt {arr : List Item} {i : ℕ} (h : i < arr.length) :
    getItem arr i = arr[i] := by
  rw [getItem, List.getD_eq_getElem?_getD, List.getElem?_eq_getElem h]
  rfl

theorem itemAreaQ_eq {it : Item} {r : JRect} {a b : ℚ} (h : it.rect = some r)
    (hw : r.width = .fin a) (hh : r.height = .fin b) : itemAreaQ it = a * b := by
  simp [itemAreaQ, h, hw, hh]

/-- The initial `_totalRemainingWeightSum` is the total input weight. -/
theorem sumW_sortIdx (items : List Item) :
    sumW items (sortIdxDesc items (List.range items.length)) =
      (items.map Item.weight).sum := by
  rw [sumW_perm items (sortIdxDesc_perm items (List.range items.length)),
    sum_map_eq_range Item.weight items, sumW_eq_sum]

/-- The completed run through the exact-area invariant, for
non-negative weights and finite non-negative bounds. -/
theorem squarifyRun_area (items : List Item) (x y w h : ℚ)
    (hwnn : ∀ it ∈ items, 0 ≤ it.weight) (hbw : 0 ≤ w) (hbh : 0 ≤ h) :
    ∃ s, squarifyRun items (mkBounds x y w h) = .ok s ∧ BookInv items s ∧
      s.sorted = [] ∧ s.row = [] ∧
      AreaP ((items.map Item.weight).sum) (w * h) s := by
  obtain ⟨hb, hrow, hlog, harr, htot⟩ := initSt_book items (mkBounds x y w h)
  have hT0 : 0 ≤ (items.map Item.weight).sum := by
    apply List.sum_nonneg
    intro q hq
    obtain ⟨it, hit, rfl⟩ := List.mem_map.mp hq
    exact hwnn it hit
  have hA0 : AreaP ((items.map Item.weight).sum) (w * h) (initSt items (mkBounds x y w h)) := by
    refine ⟨⟨w, h, rfl, rfl, hbw, hbh, ?_⟩, rfl, ?_⟩
    · rw [htot, sumW_sortIdx]
      try ring
    · intro i hi
      rw [hlog] at hi
      simp at hi
  obtain ⟨s, hrun, hb', hre', hP', hfin⟩ := stepExceptN_withInv items
    (AreaP ((items.map Item.weight).sum) (w * h))
    (fun s s' h1 h2 h3 h4 h5 h6 hP => AreaP_congr _ _ s s' h1 h2 h3 h5 h6 hP)
    (fun c hbc hcne hPc => commitRow_area items _ _ c hbc hcne hwnn hT0 hPc)
    (2 * items.length) (initSt items (mkBounds x y w h)) hb (fun _ => hrow) hA0
  have hlen : (initSt items (mkBounds x y w h)).sorted.length = items.length := by
    rw [show (initSt items (mkBounds x y w h)).sorted =
        sortIdxDesc items (List.range items.length) from rfl,
      (sortIdxDesc_perm items (List.range items.length)).length_eq, List.length_range]
  have hm : stMeasure (initSt items (mkBounds x y w h)) ≤ 2 * items.length := by
    rw [stMeasure, hlen, hrow]
    simp
  obtain ⟨hs, hr⟩ := hfin hm
  exact ⟨s, hrun, hb', hs, hr, hP'⟩

/-- Claim C1: area conservation.  With non-negative weights,
non-negative bounds and positive total weight, every item ends with a
finite non-negative rectangle and the exact rational areas sum to
`bounds.width * bounds.height`. -/
theorem claim1_area_conservation (items : List Item) (x y w h : ℚ)
    (hwnn : ∀ it ∈ items, 0 ≤ it.weight) (hbw : 0 ≤ w) (hbh : 0 ≤ h)
    (hpos : 0 < (items.map Item.weight).sum) :
    ∃ s, squarifyRun items (mkBounds x y w h) = .ok s ∧
      (∀ it ∈ s.arr, FinRect it) ∧
      (s.arr.map itemAreaQ).sum = w * h := by
  obtain ⟨s, hrun, hb, hs, hr, ⟨_, _, hplaced⟩⟩ := squarifyRun_area items x y w h hwnn hbw hbh
  have hT0 : (items.map Item.weight).sum ≠ 0 := ne_of_gt hpos
  have hflat : s.commitLog.flatten.Perm (List.range items.length) := by
    have := hb.perm
    rw [hs, hr] at this
    simpa using this
  have hmem : ∀ i, i < items.length → i ∈ s.commitLog.flatten :=
    fun i hi => hflat.mem_iff.mpr (List.mem_range.mpr hi)
  refine ⟨s, hrun, ?_, ?_⟩
  · intro it hit
    obtain ⟨i, hilen, hig⟩ := List.mem_iff_getElem.mp hit
    have hilt : i < items.length := by rw [← hb.arrLen]; exact hilen
    obtain ⟨r, a, b, h1, h2, h3, h4, h5, _⟩ := hplaced i (hmem i hilt)
    refine ⟨r, a, b, ?_, h2, h3, h4, h5⟩
    rw [← hig, ← getItem_lt hilen]
    exact h1
  · rw [sum_map_eq_range itemAreaQ s.arr, hb.arrLen]
    have hpoint : ∀ i ∈ List.range items.length,
        itemAreaQ (getItem s.arr i) =
          w * h / (items.map Item.weight).sum * (getItem items i).weight := by
      intro i hi
      have hilt := List.mem_range.mp hi
      obtain ⟨r, a, b, h1, h2, h3, _, _, h6⟩ := hplaced i (hmem i hilt)
      rw [itemAreaQ_eq h1 h2 h3]
      rw [(hb.idw i hilt).2] at h6
      field_simp
      linear_combination h6
    rw [List.map_congr_left hpoint, List.sum_map_mul_left,
      ← sum_map_eq_range Item.weight items]
    field_simp

/-- Claim C2: proportionality.  For any two items with positive
weights, the exact areas of their rectangles are in the ratio of
their weights: in cross-multiplied form unconditionally, and as an
equality of quotients whenever the bounds area is positive. -/
theorem claim2_proportionality (items : List Item) (x y w h : ℚ)
    (hwnn : ∀ it ∈ items, 0 ≤ it.weight) (hbw : 0 ≤ w) (hbh : 0 ≤ h)
    (hpos : 0 < (items.map Item.weight).sum)
    (i j : Fin items.length)
    (hwi : 0 < (getItem items i).weight) (hwj : 0 < (getItem items j).weight) :
    ∃ s, squarifyRun items (mkBounds x y w h) = .ok s ∧
      ∃ ri rj ai bi aj bj,
        (getItem s.arr i).rect = some ri ∧ ri.width = .fin ai ∧ ri.height = .fin bi ∧
        (getItem s.arr j).rect = some rj ∧ rj.width = .fin aj ∧ rj.height = .fin bj ∧
        ai * bi * (getItem items j).weight = aj * bj * (getItem items i).weight ∧
        (0 < w * h →
          ai * bi / (aj * bj) = (getItem items i).weight / (getItem items j).weight) := by
  obtain ⟨s, hrun, hb, hs, hr, ⟨_, _, hplaced⟩⟩ := squarifyRun_area items x y w h hwnn hbw hbh
  have hflat : s.commitLog.flatten.Perm (List.range items.length) := by
    have := hb.perm
    rw [hs, hr] at this
    simpa using this
  have hmem : ∀ k, k < items.length → k ∈ s.commitLog.flatten :=
    fun k hk => hflat.mem_iff.mpr (List.mem_range.mpr hk)
  obtain ⟨ri, ai, bi, hi1, hi2, hi3, _, _, hi6⟩ := hplaced i (hmem i i.isLt)
  obtain ⟨rj, aj, bj, hj1, hj2, hj3, _, _, hj6⟩ := hplaced j (hmem j j.isLt)
  rw [(hb.idw i i.isLt).2] at hi6
  rw [(hb.idw j j.isLt).2] at hj6
  refine ⟨s, hrun, ri, rj, ai, bi, aj, bj, hi1, hi2, hi3, hj1, hj2, hj3, ?_, ?_⟩
  · apply mul_right_cancel₀ (ne_of_gt hpos)
    linear_combination (getItem items j).weight * hi6 - (getItem items i).weight * hj6
  · intro hwh
    have hposj : 0 < aj * bj := by
      nlinarith [hj6, mul_pos hwh hwj, hpos]
    rw [div_eq_div_iff (ne_of_gt hposj) (ne_of_gt hwj)]
    apply mul_right_cancel₀ (ne_of_gt hpos)
    linear_combination (getItem items j).weight * hi6 - (getItem items i).weight * hj6

/-- Claim C9: with non-negative weights and bounds, every assigned
rectangle has finite, non-negative width and height (the horizontal
branch needs no clamp under these preconditions). -/
theorem claim9_nonneg_rects (items : List Item) (x y w h : ℚ)
    (hwnn : ∀ it ∈ items, 0 ≤ it.weight) (hbw : 0 ≤ w) (hbh : 0 ≤ h) :
    ∃ s, squarifyRun items (mkBounds x y w h) = .ok s ∧ ∀ it ∈ s.arr, FinRect it := by
  obtain ⟨s, hrun, hb, hs, hr, ⟨_, _, hplaced⟩⟩ := squarifyRun_area items x y w h hwnn hbw hbh
  have hflat : s.commitLog.flatten.Perm (List.range items.length) := by
    have := hb.perm
    rw [hs, hr] at this
    simpa using this
  refine ⟨s, hrun, ?_⟩
  intro it hit
  obtain ⟨i, hilen, hig⟩ := List.mem_iff_getElem.mp hit
  have hilt : i < items.length := by rw [← hb.arrLen]; exact hilen
  obtain ⟨r, a, b, h1, h2, h3, h4, h5, _⟩ :=
    hplaced i (hflat.mem_iff.mpr (List.mem_range.mpr hilt))
  refine ⟨r, a, b, ?_, h2, h3, h4, h5⟩
  rw [← hig, ← getItem_lt hilen]
  exact h1

/-- Invariant for the all-zero-weights regime: bounds area times the
item count tracks `A0` times `_itemsRemaining`, and every placed
rectangle has exact area `A0 / n` (cross-multiplied). -/
def AreaZ (n : ℕ) (A0 : ℚ) (s : St) : Prop :=
  (∃ bw bh, s.bounds.width = .fin bw ∧ s.bounds.height = .fin bh ∧ 0 ≤ bw ∧ 0 ≤ bh ∧
    bw * bh * (n : ℚ) = A0 * s.remaining) ∧
  s.shorter = jmin s.bounds.width s.bounds.height ∧
  (∀ i ∈ s.commitLog.flatten, ∃ r a b, (getItem s.arr i).rect = some r ∧
    r.width = .fin a ∧ r.height = .fin b ∧ a * b * (n : ℚ) = A0)

theorem AreaZ_congr (n : ℕ) (A0 : ℚ) (s s' : St) (harr : s'.arr = s.arr)
    (hbd : s'.bounds = s.bounds) (hrm : s'.remaining = s.remaining)
    (hsh : s'.shorter = s.shorter) (hlog : s'.commitLog = s.commitLog)
    (h : AreaZ n A0 s) : AreaZ n A0 s' := by
  obtain ⟨⟨bw, bh, h1, h2, h3, h4, h5⟩, hsh0, hp⟩ := h
  refine ⟨⟨bw, bh, by rw [hbd]; exact h1, by rw [hbd]; exact h2, h3, h4,
    by rw [hrm]; exact h5⟩, by rw [hsh, hbd]; exact hsh0, ?_⟩
  intro i hi
  rw [harr]
  exact hp i (by rw [← hlog]; exact hi)

/-- Committing a non-empty row preserves the all-zero-weights
invariant. -/
theorem commitRow_areaZ (items : List Item) (A0 : ℚ) (c : St)
    (hb : BookInv items c) (hrne : c.row ≠ [])
    (hz : ∀ it ∈ items, it.weight = 0)
    (hA : AreaZ items.length A0 c) : AreaZ items.length A0 (commitRow c) := by
  obtain ⟨⟨bw, bh, hW, hH, hbw, hbh, hrel⟩, hsh, hplaced⟩ := hA
  have hnodupAll := hb.nodupAll
  have hndrs : (c.row ++ c.sorted).Nodup := hnodupAll.of_append_right
  have hndrow : c.row.Nodup := hndrs.of_append_left
  have hdisjlog : (c.commitLog.flatten).Disjoint (c.row ++ c.sorted) :=
    List.disjoint_of_nodup_append hnodupAll
  have hvalrow : ∀ i ∈ c.row, i < c.arr.length := by
    intro i hi
    rw [hb.arrLen]
    exact hb.validAll i (List.mem_append_right _ (List.mem_append_left _ hi))
  have hwz : ∀ i ∈ c.row ++ c.sorted, (getItem c.arr i).weight = 0 := by
    intro i hi
    have hilt : i < items.length := hb.validAll i (List.mem_append_right _ hi)
    rw [(hb.idw i hilt).2]
    exact hz _ (getItem_mem hilt)
  have hwrow : ∀ i ∈ c.row, 0 ≤ (getItem c.arr i).weight :=
    fun i hi => le_of_eq (hwz i (List.mem_append_left _ hi)).symm
  have htz : c.total = 0 := by
    rw [hb.total, sumW_eq_sum]
    apply List.sum_eq_zero
    intro q hq
    obtain ⟨i, hi, rfl⟩ := List.mem_map.mp hq
    exact hwz i hi
  have hsr0 : sumW c.arr c.row = 0 := by
    rw [sumW_eq_sum]
    apply List.sum_eq_zero
    intro q hq
    obtain ⟨i, hi, rfl⟩ := List.mem_map.mp hq
    exact hwz i (List.mem_append_left _ hi)
  have hrl1 : 1 ≤ c.row.length := List.length_pos.mpr hrne
  have hlenne : ((c.row.length : ℕ) : ℚ) ≠ 0 := by
    have : (1:ℚ) ≤ ((c.row.length : ℕ) : ℚ) := by exact_mod_cast hrl1
    linarith
  have hremge : ((c.row.length : ℕ) : ℚ) ≤ c.remaining := by
    rw [hb.remaining, List.length_append]
    push_cast
    have h0 : (0:ℚ) ≤ c.sorted.length := by positivity
    linarith
  have hrempos : 0 < c.remaining := by
    have : (1:ℚ) ≤ ((c.row.length : ℕ) : ℚ) := by exact_mod_cast hrl1
    linarith
  obtain ⟨arr', bounds', hlr, hlen, hout, hin, ⟨bw', bh', hW', hH', hbw', hbh', hprod⟩,
    hce0, hcele⟩ :=
    layoutRow_spec c.row c.bounds c.arr c.total c.remaining bw bh hW hH hbw hbh
      hrne hndrow hvalrow hwrow (le_of_eq htz.symm) (le_of_eq (htz ▸ hsr0)) hremge
  have hcr : commitRow c =
      { arr := arr', sorted := c.sorted, row := [], bounds := bounds',
        total := c.total - sumW c.arr c.row, remaining := c.remaining - (c.row.length : ℚ),
        lastAR := .pinf, shorter := jmin bounds'.width bounds'.height,
        commitLog := c.commitLog ++ [c.row] } := by
    simp only [commitRow]
    rw [hsh, hlr]
  rw [hcr]
  have hshlg : min bw bh * max bw bh = bw * bh := min_mul_max bw bh
  have hrel' : min bw bh * max bw bh * ((items.length : ℕ) : ℚ) = A0 * c.remaining := by
    rw [hshlg]; exact hrel
  refine ⟨⟨bw', bh', hW', hH', hbw', hbh', ?_⟩, rfl, ?_⟩
  · rw [hprod, ceOf, if_pos htz, hsr0]
    show min bw bh * (max bw bh - max bw bh * ((c.row.length : ℕ) : ℚ) / c.remaining) *
        ((items.length : ℕ) : ℚ) = A0 * (c.remaining - ((c.row.length : ℕ) : ℚ))
    field_simp
    linear_combination (c.remaining - ((c.row.length : ℕ) : ℚ)) * hrel'
  · intro i hi
    simp only [List.flatten_append, List.flatten_cons, List.flatten_nil, List.append_nil] at hi
    rcases List.mem_append.mp hi with hi | hi
    · have hnotrow : i ∉ c.row := fun hr => hdisjlog hi (List.mem_append_left _ hr)
      show ∃ r a b, (getItem arr' i).rect = some r ∧ _
      rw [hout i hnotrow]
      exact hplaced i hi
    · obtain ⟨r, a, b, hitem, hwid, hhgt, _, _, harea⟩ := hin i hi
      refine ⟨r, a, b, by rw [hitem], hwid, hhgt, ?_⟩
      rw [harea]
      have hw0 : (getItem c.arr i).weight = 0 := hwz i (List.mem_append_left _ hi)
      rw [hsr0, fqOf, if_pos rfl, ceOf, if_pos htz]
      field_simp
      linear_combination ((c.row.length : ℕ) : ℚ) * hrel'

/-- The completed run through the all-zero-weights invariant. -/
theorem squarifyRun_areaZ (items : List Item) (x y w h : ℚ)
    (hz : ∀ it ∈ items, it.weight = 0) (hbw : 0 ≤ w) (hbh : 0 ≤ h) :
    ∃ s, squarifyRun items (mkBounds x y w h) = .ok s ∧ BookInv items s ∧
      s.sorted = [] ∧ s.row = [] ∧ AreaZ items.length (w * h) s := by
  obtain ⟨hb, hrow, hlog, harr, htot⟩ := initSt_book items (mkBounds x y w h)
  have hA0 : AreaZ items.length (w * h) (initSt items (mkBounds x y w h)) := by
    refine ⟨⟨w, h, rfl, rfl, hbw, hbh, ?_⟩, rfl, ?_⟩
    · show w * h * ((items.length : ℕ) : ℚ) = w * h * ((items.length : ℕ) : ℚ)
      rfl
    · intro i hi
      rw [hlog] at hi
      simp at hi
  obtain ⟨s, hrun, hb', hre', hP', hfin⟩ := stepExceptN_withInv items
    (AreaZ items.length (w * h))
    (fun s s' h1 h2 h3 h4 h5 h6 hP => AreaZ_congr _ _ s s' h1 h2 h4 h5 h6 hP)
    (fun c hbc hcne hPc => commitRow_areaZ items _ c hbc hcne hz hPc)
    (2 * items.length) (initSt items (mkBounds x y w h)) hb (fun _ => hrow) hA0
  have hlen : (initSt items (mkBounds x y w h)).sorted.length = items.length := by
    rw [show (initSt items (mkBounds x y w h)).sorted =
        sortIdxDesc items (List.range items.length) from rfl,
      (sortIdxDesc_perm items (List.range items.length)).length_eq, List.length_range]
  have hm : stMeasure (initSt items (mkBounds x y w h)) ≤ 2 * items.length := by
    rw [stMeasure, hlen, hrow]
    simp
  obtain ⟨hs, hr⟩ := hfin hm
  exact ⟨s, hrun, hb', hs, hr, hP'⟩

/-- Claim C4: all-zero weights.  On a non-empty item list in which
every weight is `0`, with non-negative bounds, every item's
rectangle has exact area `bounds.width * bounds.height / count`. -/
theorem claim4_zero_weights (items : List Item) (x y w h : ℚ)
    (hne : items ≠ []) (hz : ∀ it ∈ items, it.weight = 0) (hbw : 0 ≤ w) (hbh : 0 ≤ h) :
    ∃ s, squarifyRun items (mkBounds x y w h) = .ok s ∧
      ∀ i : Fin items.length, ∃ r a b, (getItem s.arr i).rect = some r ∧
        r.width = .fin a ∧ r.height = .fin b ∧
        a * b = w * h / ((items.length : ℕ) : ℚ) := by
  obtain ⟨s, hrun, hb, hs, hr, ⟨_, _, hplaced⟩⟩ := squarifyRun_areaZ items x y w h hz hbw hbh
  have hflat : s.commitLog.flatten.Perm (List.range items.length) := by
    have := hb.perm
    rw [hs, hr] at this
    simpa using this
  have hn : ((items.length : ℕ) : ℚ) ≠ 0 :=
    Nat.cast_ne_zero.mpr (Nat.pos_iff_ne_zero.mp (List.length_pos.mpr hne))
  refine ⟨s, hrun, ?_⟩
  intro i
  obtain ⟨r, a, b, h1, h2, h3, h4⟩ :=
    hplaced i (hflat.mem_iff.mpr (List.mem_range.mpr i.isLt))
  refine ⟨r, a, b, h1, h2, h3, ?_⟩
  field_simp
  linear_combination h4

/-- With a zero shorter edge, every probe returns `MAX_VALUE` and the
guard `lastAspectRatio >= aspectRatio` accepts it (also on equality),
so the whole working list accumulates into one row, committed only
when the list empties. -/
theorem stepExceptN_zero_edge :
    ∀ (k : ℕ) (s : St), s.shorter = .fin 0 → s.sorted.length = k → s.sorted ≠ [] →
      (s.lastAR = .pinf ∨ s.lastAR = .fin numberMaxValue) →
      stepExceptN k s =
        .ok (commitRow
          { s with sorted := [], row := s.row ++ s.sorted, lastAR := .fin numberMaxValue }) := by
  intro k
  induction k with
  | zero =>
    intro s _ hl hs _
    exact absurd (List.length_eq_zero.mp hl) hs
  | succ k ih =>
    intro s hsh hl hs hla
    obtain ⟨arr, sorted, row, bounds, total, remaining, lastAR, shorter, log⟩ := s
    cases sorted with
    | nil => exact absurd rfl hs
    | cons nextI rest =>
      simp only at hsh hl hla
      subst hsh
      have hcalc := calcWorst_maxValue ((row ++ [nextI]).map (getItem arr)) bounds total
        remaining (by simp)
      have hacc : (jge lastAR (.fin numberMaxValue) || jIsNaN (.fin numberMaxValue)) = true := by
        rcases hla with rfl | rfl
        · rfl
        · simp [jge, jle]
      cases rest with
      | nil =>
        have hk : k = 0 := by simpa using hl
        subst hk
        rw [stepExceptN, if_neg (by simp)]
        simp only [step]
        rw [hcalc]
        simp [hacc, stepExceptN]
      | cons r1 rs =>
        rw [stepExceptN, if_neg (by simp)]
        simp only [step]
        rw [hcalc]
        simp only [hacc, Bool.true_or, if_pos, List.isEmpty_cons, Bool.false_eq_true,
          if_false, ite_true]
        have hrec := ih ⟨arr, r1 :: rs, row ++ [nextI], bounds, total, remaining,
          .fin numberMaxValue, .fin 0, log⟩ rfl (by simpa using hl) (by simp) (Or.inr rfl)
        rw [hrec]
        have heq : (row ++ [nextI]) ++ (r1 :: rs) = row ++ (nextI :: r1 :: rs) := by simp
        simp only [heq]

theorem commitRow_fields (c : St) : (commitRow c).sorted = c.sorted ∧ (commitRow c).row = [] ∧
    (commitRow c).commitLog = c.commitLog ++ [c.row] := by
  simp only [commitRow]
  rcases layoutRow c.row c.shorter c.bounds c.arr c.total c.remaining with ⟨a, b, t, r⟩
  simp

/-- Claim C3 as stated is FALSE on the code: with bounds
`{x:0, y:0, width:0, height:10}` and two items of weight `1`, the
probe returns `MAX_VALUE` for both the one-item and the two-item row,
the guard `lastAspectRatio >= aspectRatio` accepts on equality, and
BOTH items end up committed together in ONE shared row — not each in
its own single-item row. -/
theorem claim3_counterexample :
    ∃ rows, (squarifyRun [mkItem 0 1, mkItem 1 1] (mkBounds 0 0 0 10)).map St.commitLog =
        .ok rows ∧ ¬ (∀ r ∈ rows, r.length = 1) := by
  refine ⟨[[0, 1]], ?_, ?_⟩
  · norm_num [squarifyRun, initSt, stepExceptN, step, commitRow, layoutRow, commonEdge,
      placeItems, placedRect, fracOf, updateBoundsForNextRow, calculateWorstAspectRatioInRow,
      scanAreas, sortIdxDesc, insertIdxDesc, sumW, getItem, jmin, jeq, jle, jge, jmul, jdiv,
      jadd, jsub, jmax, jIsNaN, jlt, jgt, mkItem, mkBounds, numberMaxValue, Except.map]
  · intro hall
    have h2 := hall [0, 1] (by simp)
    simp at h2

/-- Claim C3 (amended): when the shorter edge of the bounds is zero,
`calculateWorstAspectRatioInRow` returns `Number.MAX_VALUE` on every
non-empty row, and the call terminates without error — but with ALL
remaining items committed together in one single shared row (the
guard accepts `MAX_VALUE >= MAX_VALUE`), each with a zero-area
rectangle. -/
theorem claim3_zero_edge_amended (items : List Item) (x y w h : ℚ)
    (hne : items ≠ []) (hwnn : ∀ it ∈ items, 0 ≤ it.weight)
    (hbw : 0 ≤ w) (hbh : 0 ≤ h) (hzero : w = 0 ∨ h = 0) :
    (∀ (row : List Item) (b : JRect) (t r : ℚ), row ≠ [] →
      calculateWorstAspectRatioInRow row (.fin 0) b t r = .ok (.fin numberMaxValue)) ∧
    ∃ s, squarifyRun items (mkBounds x y w h) = .ok s ∧
      s.commitLog = [sortIdxDesc items (List.range items.length)] ∧
      ∀ it ∈ s.arr, ∃ r a b, it.rect = some r ∧ r.width = .fin a ∧ r.height = .fin b ∧
        a * b = 0 ∧ itemAreaQ it = 0 := by
  refine ⟨fun row b t r hrne => calcWorst_maxValue row b t r hrne, ?_⟩
  have hmin0 : min w h = 0 := by
    rcases hzero with rfl | rfl
    · exact min_eq_left hbh
    · exact min_eq_right hbw
  have hwh0 : w * h = 0 := by
    rcases hzero with rfl | rfl
    · ring
    · ring
  have hsortlen : (sortIdxDesc items (List.range items.length)).length = items.length := by
    rw [(sortIdxDesc_perm items (List.range items.length)).length_eq, List.length_range]
  have hsortne : sortIdxDesc items (List.range items.length) ≠ [] := by
    intro habs
    rw [habs] at hsortlen
    exact hne (List.length_eq_zero.mp hsortlen.symm)
  have hshinit : (initSt items (mkBounds x y w h)).shorter = .fin 0 := by
    show jmin (.fin w) (.fin h) = .fin 0
    rw [jmin_fin, hmin0]
  have haux := stepExceptN_zero_edge items.length (initSt items (mkBounds x y w h)) hshinit
    (by rw [show (initSt items (mkBounds x y w h)).sorted =
      sortIdxDesc items (List.range items.length) from rfl, hsortlen]) hsortne (Or.inl rfl)
  obtain ⟨final, hfrunN, hfsorted, hlogfinal⟩ :
      ∃ f, stepExceptN items.length (initSt items (mkBounds x y w h)) = .ok f ∧
        f.sorted = [] ∧ f.commitLog = [sortIdxDesc items (List.range items.length)] := by
    refine ⟨_, haux, ?_, ?_⟩
    · exact (commitRow_fields _).1
    · rw [(commitRow_fields _).2.2]
      simp [initSt]
  have hfinal : squarifyRun items (mkBounds x y w h) = .ok final := by
    rw [squarifyRun]
    exact stepExceptN_mono items.length _ final hfrunN hfsorted (2 * items.length) (by omega)
  by_cases hT : (items.map Item.weight).sum = 0
  · have hz : ∀ it ∈ items, it.weight = 0 := by
      intro it hit
      refine List.all_zero_of_le_zero_le_of_sum_eq_zero ?_ hT (List.mem_map_of_mem _ hit)
      intro q hq
      obtain ⟨u, hu, rfl⟩ := List.mem_map.mp hq
      exact hwnn u hu
    obtain ⟨s₂, hrun₂, hb₂, hs₂, hr₂, ⟨_, _, hplaced₂⟩⟩ :=
      squarifyRun_areaZ items x y w h hz hbw hbh
    have hflat : s₂.commitLog.flatten.Perm (List.range items.length) := by
      have := hb₂.perm
      rw [hs₂, hr₂] at this
      simpa using this
    have hn : ((items.length : ℕ) : ℚ) ≠ 0 :=
      Nat.cast_ne_zero.mpr (Nat.pos_iff_ne_zero.mp (List.length_pos.mpr hne))
    refine ⟨s₂, hrun₂, ?_, ?_⟩
    · rw [hfinal] at hrun₂
      injection hrun₂ with heq
      rw [heq] at hlogfinal
      exact hlogfinal
    · intro it hit
      obtain ⟨i, hilen, hig⟩ := List.mem_iff_getElem.mp hit
      have hilt : i < items.length := by rw [← hb₂.arrLen]; exact hilen
      obtain ⟨r, a, b, h1, h2, h3, h4⟩ :=
        hplaced₂ i (hflat.mem_iff.mpr (List.mem_range.mpr hilt))
      rw [getItem_lt hilen, hig] at h1
      have hab : a * b = 0 := by
        rw [hwh0] at h4
        have := mul_eq_zero.mp h4
        rcases this with h | h
        · exact h
        · exact absurd h hn
      refine ⟨r, a, b, h1, h2, h3, hab, ?_⟩
      rw [itemAreaQ_eq h1 h2 h3, hab]
  · have hTpos : 0 < (items.map Item.weight).sum := by
      rcases lt_or_eq_of_le (List.sum_nonneg (by
        intro q hq
        obtain ⟨u, hu, rfl⟩ := List.mem_map.mp hq
        exact hwnn u hu)) with hlt | heq
      · exact hlt
      · exact absurd heq.symm hT
    obtain ⟨s₂, hrun₂, hb₂, hs₂, hr₂, ⟨_, _, hplaced₂⟩⟩ :=
      squarifyRun_area items x y w h hwnn hbw hbh
    have hflat : s₂.commitLog.flatten.Perm (List.range items.length) := by
      have := hb₂.perm
      rw [hs₂, hr₂] at this
      simpa using this
    refine ⟨s₂, hrun₂, ?_, ?_⟩
    · rw [hfinal] at hrun₂
      injection hrun₂ with heq
      rw [heq] at hlogfinal
      exact hlogfinal
    · intro it hit
      obtain ⟨i, hilen, hig⟩ := List.mem_iff_getElem.mp hit
      have hilt : i < items.length := by rw [← hb₂.arrLen]; exact hilen
      obtain ⟨r, a, b, h1, h2, h3, _, _, h6⟩ :=
        hplaced₂ i (hflat.mem_iff.mpr (List.mem_range.mpr hilt))
      rw [getItem_lt hilen, hig] at h1
      have hab : a * b = 0 := by
        have : a * b * (items.map Item.weight).sum = 0 := by
          rw [h6, hwh0]
          ring
        rcases mul_eq_zero.mp this with h | h
        · exact h
        · exact absurd h (ne_of_gt hTpos)
      refine ⟨r, a, b, h1, h2, h3, hab, ?_⟩
      rw [itemAreaQ_eq h1 h2 h3, hab]

/-- Witness for C1, at the repository's own worked example:
weights `3, 2, 1` over a `100 × 100` square. -/
theorem claim1_area_conservation_witness :
    ((∀ it ∈ [mkItem 0 3, mkItem 1 2, mkItem 2 1], 0 ≤ it.weight) ∧ (0:ℚ) ≤ 100 ∧
      (0:ℚ) ≤ 100 ∧ 0 < (([mkItem 0 3, mkItem 1 2, mkItem 2 1].map Item.weight).sum)) ∧
    (∃ s, squarifyRun [mkItem 0 3, mkItem 1 2, mkItem 2 1] (mkBounds 0 0 100 100) = .ok s ∧
      (∀ it ∈ s.arr, FinRect it) ∧ (s.arr.map itemAreaQ).sum = 100 * 100) :=
  ⟨⟨by decide, by decide, by decide, by norm_num [mkItem]⟩,
    claim1_area_conservation [mkItem 0 3, mkItem 1 2, mkItem 2 1] 0 0 100 100
      (by decide) (by decide) (by decide) (by norm_num [mkItem])⟩

/-- Witness for C2, at the same worked example, comparing the items
of weight `3` and `2`. -/
theorem claim2_proportionality_witness :
    ((∀ it ∈ [mkItem 0 3, mkItem 1 2, mkItem 2 1], 0 ≤ it.weight) ∧ (0:ℚ) ≤ 100 ∧
      (0:ℚ) ≤ 100 ∧ 0 < (([mkItem 0 3, mkItem 1 2, mkItem 2 1].map Item.weight).sum) ∧
      0 < (getItem [mkItem 0 3, mkItem 1 2, mkItem 2 1] 0).weight ∧
      0 < (getItem [mkItem 0 3, mkItem 1 2, mkItem 2 1] 1).weight) ∧
    (∃ s, squarifyRun [mkItem 0 3, mkItem 1 2, mkItem 2 1] (mkBounds 0 0 100 100) = .ok s ∧
      ∃ ri rj ai bi aj bj,
        (getItem s.arr 0).rect = some ri ∧ ri.width = .fin ai ∧ ri.height = .fin bi ∧
        (getItem s.arr 1).rect = some rj ∧ rj.width = .fin aj ∧ rj.height = .fin bj ∧
        ai * bi * (getItem [mkItem 0 3, mkItem 1 2, mkItem 2 1] 1).weight =
          aj * bj * (getItem [mkItem 0 3, mkItem 1 2, mkItem 2 1] 0).weight ∧
        (0 < (100:ℚ) * 100 →
          ai * bi / (aj * bj) = (getItem [mkItem 0 3, mkItem 1 2, mkItem 2 1] 0).weight /
            (getItem [mkItem 0 3, mkItem 1 2, mkItem 2 1] 1).weight)) :=
  ⟨⟨by decide, by decide, by decide, by norm_num [mkItem], by decide, by decide⟩,
    claim2_proportionality [mkItem 0 3, mkItem 1 2, mkItem 2 1] 0 0 100 100
      (by decide) (by decide) (by decide) (by norm_num [mkItem])
      ⟨0, by decide⟩ ⟨1, by decide⟩ (by decide) (by decide)⟩

/-- Witness for the amended C3, at two unit-weight items over
degenerate bounds `{x:0, y:0, width:0, height:10}`. -/
theorem claim3_zero_edge_amended_witness :
    (([mkItem 0 1, mkItem 1 1] : List Item) ≠ [] ∧
      (∀ it ∈ [mkItem 0 1, mkItem 1 1], 0 ≤ it.weight) ∧ (0:ℚ) ≤ 0 ∧ (0:ℚ) ≤ 10 ∧
      ((0:ℚ) = 0 ∨ (10:ℚ) = 0)) ∧
    ((∀ (row : List Item) (b : JRect) (t r : ℚ), row ≠ [] →
      calculateWorstAspectRatioInRow row (.fin 0) b t r = .ok (.fin numberMaxValue)) ∧
    ∃ s, squarifyRun [mkItem 0 1, mkItem 1 1] (mkBounds 0 0 0 10) = .ok s ∧
      s.commitLog = [sortIdxDesc [mkItem 0 1, mkItem 1 1] (List.range 2)] ∧
      ∀ it ∈ s.arr, ∃ r a b, it.rect = some r ∧ r.width = .fin a ∧ r.height = .fin b ∧
        a * b = 0 ∧ itemAreaQ it = 0) :=
  ⟨⟨by decide, by decide, by decide, by decide, Or.inl rfl⟩,
    claim3_zero_edge_amended [mkItem 0 1, mkItem 1 1] 0 0 0 10
      (by decide) (by decide) (by decide) (by decide) (Or.inl rfl)⟩

/-- Witness for C4, at two zero-weight items over a `100 × 50`
rectangle. -/
theorem claim4_zero_weights_witness :
    (([mkItem 0 0, mkItem 1 0] : List Item) ≠ [] ∧
      (∀ it ∈ [mkItem 0 0, mkItem 1 0], it.weight = 0) ∧ (0:ℚ) ≤ 100 ∧ (0:ℚ) ≤ 50) ∧
    (∃ s, squarifyRun [mkItem 0 0, mkItem 1 0] (mkBounds 0 0 100 50) = .ok s ∧
      ∀ i : Fin ([mkItem 0 0, mkItem 1 0] : List Item).length,
        ∃ r a b, (getItem s.arr i).rect = some r ∧
          r.width = .fin a ∧ r.height = .fin b ∧
          a * b = 100 * 50 / ((([mkItem 0 0, mkItem 1 0] : List Item).length : ℕ) : ℚ)) :=
  ⟨⟨by decide, by decide, by decide, by decide⟩,
    claim4_zero_weights [mkItem 0 0, mkItem 1 0] 0 0 100 50
      (by decide) (by decide) (by decide) (by decide)⟩

/-- Witness for C9, at a mixed positive/zero weight pair over a
`5 × 3` rectangle. -/
theorem claim9_nonneg_rects_witness :
    ((∀ it ∈ [mkItem 0 1, mkItem 1 0], 0 ≤ it.weight) ∧ (0:ℚ) ≤ 5 ∧ (0:ℚ) ≤ 3) ∧
    (∃ s, squarifyRun [mkItem 0 1, mkItem 1 0] (mkBounds 0 0 5 3) = .ok s ∧
      ∀ it ∈ s.arr, FinRect it) :=
  ⟨⟨by decide, by decide, by decide⟩,
    claim9_nonneg_rects [mkItem 0 1, mkItem 1 0] 0 0 5 3
      (by decide) (by decide) (by decide)⟩
